import Mathlib

/-!
Verification development for the VTD list parser (autoload/parsers.py).

The Python source is shallowly embedded below: pure functions become Lean
functions, the file handle threaded through the outline parser becomes an
explicit list of (newline-stripped) lines, Python exceptions (ValueError
from strptime, TypeError from adding a timedelta to None) become an
`Except Unit` result, and the recursive `process_outline` loop is given an
explicit fuel argument (sufficiency of a concrete fuel bound is proved,
which is the termination statement).

Regular expressions from the source are compiled by hand into matcher
functions over `List Char`; scanning (`re.finditer` / `re.search` /
`re.sub`) is implemented once, generically, over such matchers.
-/

/-- Character class of Python's `\s` (ASCII whitespace, Python 2 bytes mode). -/
def isSpaceC (c : Char) : Bool :=
  c = ' ' ∨ c = '\t' ∨ c = '\n' ∨ c = '\x0b' ∨ c = '\x0c' ∨ c = '\r'

/-- Character class of Python's `\w` (word characters, Python 2 bytes mode). -/
def isWordC (c : Char) : Bool :=
  c.isAlphanum ∨ c = '_'

/-- Character class of Python's `\d`. -/
def isDigitC (c : Char) : Bool :=
  c.isDigit

/-- Number of leading `\s` characters of a character list. -/
def wsCount (cs : List Char) : Nat :=
  (cs.takeWhile isSpaceC).length

/-- Substring test: does `pat` occur contiguously inside `cs`?
Implements the truth value of Python's `re.search` on a plain literal. -/
def hasSub (pat : List Char) : List Char → Bool
  | [] => pat.isEmpty
  | c :: rest => pat.isPrefixOf (c :: rest) || hasSub pat rest

/-- Embeds `item_done` (parsers.py): `re.search(r"(DONE|WONTDO)", line)`. -/
def item_done (line : String) : Bool :=
  hasSub "DONE".toList line.toList || hasSub "WONTDO".toList line.toList

/-- Embeds `is_recur` (parsers.py): `re.search(r"RECUR", line)`. -/
def is_recur (line : String) : Bool :=
  hasSub "RECUR".toList line.toList

/-- Embeds `opening_whitespace` (parsers.py): `re.match(r"(\s*)\S", string)`;
returns 0 when the line has no non-whitespace character. -/
def opening_whitespace (s : String) : Nat :=
  let cs := s.toList
  let k := wsCount cs
  if k = cs.length then 0 else k

/-- Embeds `list_start` (parsers.py): `re.match(r"\s*([-#@*])\s", line)`,
returning the list-marker character when the line starts a list element. -/
def list_start (line : String) : Option Char :=
  let cs := line.toList
  match cs.drop (wsCount cs) with
  | c :: d :: _ =>
    if (c = '-' ∨ c = '#' ∨ c = '@' ∨ c = '*') ∧ isSpaceC d then some c else none
  | _ => none

/-- Embeds `is_next_action` (parsers.py): a list-type line whose marker is
followed by an isolated `@`: `re.match(r"\s*[%s]\s+@\s" % list_type, line)`. -/
def is_next_action (line : String) : Bool :=
  match list_start line with
  | none => false
  | some c =>
    let cs := line.toList
    match cs.drop (wsCount cs) with
    | c0 :: r1 =>
      if c0 = c then
        let k := wsCount r1
        if k = 0 then false
        else match r1.drop k with
          | '@' :: d :: _ => isSpaceC d
          | _ => false
      else false
    | [] => false

/-- Embeds `blank` (parsers.py): `re.match(r"\s*$", line)`. -/
def blank (line : String) : Bool :=
  line.toList.all isSpaceC

/-- Embeds `read_and_count_lines` (parsers.py): read the next line (the file
is modelled as the list of its remaining newline-stripped lines); at end of
input the line counter becomes 0 (the Python falsy marker). -/
def read_and_count_lines (linenum : Nat) (f : List String) :
    (Nat × String) × List String :=
  match f with
  | [] => ((0, ""), [])
  | l :: rest => ((linenum + 1, l), rest)

/-- Embeds `next_key` (parsers.py): the next synthetic key for an item map. -/
def next_key {α : Type} (x : List α) : Nat :=
  x.length

/-- Embeds the duck-typed counter of `list_counter` (parsers.py):
`True` (no limit), or a number of elements left to process. -/
inductive LCount where
  | unlimited : LCount
  | remaining : Nat → LCount
deriving DecidableEq

/-- Embeds `list_counter` (parsers.py): `'*'` means skip all (0), `'#'` means
process only the first (1), anything else means no limit (`True`). -/
def list_counter (list_type : Char) : LCount :=
  if list_type = '*' then .remaining 0
  else if list_type = '#' then .remaining 1
  else .unlimited

/-- Embeds `update_list_counter` (parsers.py): decrement a numeric counter
that is still positive; `True` and 0 are returned unchanged. -/
def update_list_counter (counter : LCount) : LCount :=
  match counter with
  | .unlimited => .unlimited
  | .remaining 0 => .remaining 0
  | .remaining (n + 1) => .remaining n

/-- Embeds `pluralize` (parsers.py): `"%d %s"` with the singular form for
count 1 and the plural form (default singular + "s") otherwise. -/
def pluralize (count : Int) (s : String) (sp : Option String) : String :=
  let spv := match sp with
    | none => s ++ "s"
    | some x => x
  let word := if count = 1 then s else spv
  toString count ++ " " ++ word

/-- Embeds `pretty_date` (parsers.py).  Python 2 `/` on ints is floor
division, modelled by `Int.fdiv`; the chain of `if`s mirrors the source,
including the fall-through from the `day_diff == 0` block. -/
def pretty_date (dt_secs : Int) : String :=
  let secs_per_day : Int := 24 * 3600
  let day_diff := Int.fdiv dt_secs secs_per_day
  let second_diff := dt_secs - day_diff * secs_per_day
  if day_diff < 0 then ""
  else if day_diff = 0 ∧ second_diff < 10 then "just now"
  else if day_diff = 0 ∧ second_diff < 60 then pluralize second_diff "second" none
  else if day_diff = 0 ∧ second_diff < 3600 then
    pluralize (Int.fdiv second_diff 60) "minute" none
  else if day_diff = 0 ∧ second_diff < 86400 then
    pluralize (Int.fdiv second_diff 3600) "hour" none
  else if day_diff < 7 then pluralize day_diff "day" none
  else if day_diff < 31 then pluralize (Int.fdiv day_diff 7) "week" none
  else if day_diff < 365 then pluralize (Int.fdiv day_diff 30) "month" none
  else pluralize (Int.fdiv day_diff 365) "year" none

/-- A parsed calendar timestamp, as produced by Python's
`datetime.strptime(s, "%Y-%m-%d %H:%M")`. -/
structure DT where
  year : Nat
  month : Nat
  day : Nat
  hour : Nat
  minute : Nat
deriving DecidableEq

/-- Gregorian leap-year test (as in Python's `calendar`/`datetime`). -/
def leapYear (y : Nat) : Bool :=
  (y % 4 = 0 ∧ y % 100 ≠ 0) ∨ y % 400 = 0

/-- Days in a month of a given year (as validated by `datetime.__new__`). -/
def daysInMonth (y m : Nat) : Nat :=
  if m = 2 then (if leapYear y then 29 else 28)
  else if m = 4 ∨ m = 6 ∨ m = 9 ∨ m = 11 then 30
  else 31

/-- The validity check performed by the `datetime` constructor; a violation
raises `ValueError` in Python. -/
def validDT (d : DT) : Bool :=
  1 ≤ d.year ∧ d.year ≤ 9999 ∧ 1 ≤ d.month ∧ d.month ≤ 12 ∧
    1 ≤ d.day ∧ d.day ≤ daysInMonth d.year d.month ∧
    d.hour ≤ 23 ∧ d.minute ≤ 59

/-- Numeric value of a digit character. -/
def dVal (c : Char) : Nat :=
  c.toNat - 48

/-- Alternatives of Python `_strptime`'s regex for `%m`,
`1[0-2]|0[1-9]|[1-9]`, in regex alternation order: each entry is a parsed
value together with the remaining input. -/
def mAlts : List Char → List (Nat × List Char)
  | '1' :: c :: rest =>
    (if c = '0' ∨ c = '1' ∨ c = '2' then [(10 + dVal c, rest)] else []) ++
      [(1, c :: rest)]
  | '0' :: c :: rest =>
    if '1' ≤ c ∧ c ≤ '9' then [(dVal c, rest)] else []
  | c :: rest =>
    if '1' ≤ c ∧ c ≤ '9' then [(dVal c, rest)] else []
  | [] => []

/-- Alternatives of `_strptime`'s regex for `%d`: `3[01]|[12]\d|0[1-9]|[1-9]`. -/
def dAlts : List Char → List (Nat × List Char)
  | '3' :: c :: rest =>
    (if c = '0' ∨ c = '1' then [(30 + dVal c, rest)] else []) ++ [(3, c :: rest)]
  | '1' :: c :: rest =>
    (if isDigitC c then [(10 + dVal c, rest)] else []) ++ [(1, c :: rest)]
  | '2' :: c :: rest =>
    (if isDigitC c then [(20 + dVal c, rest)] else []) ++ [(2, c :: rest)]
  | '0' :: c :: rest =>
    if '1' ≤ c ∧ c ≤ '9' then [(dVal c, rest)] else []
  | c :: rest =>
    if '1' ≤ c ∧ c ≤ '9' then [(dVal c, rest)] else []
  | [] => []

/-- Alternatives of `_strptime`'s regex for `%H`: `2[0-3]|[0-1]\d|\d`. -/
def hAlts : List Char → List (Nat × List Char)
  | '2' :: c :: rest =>
    (if c = '0' ∨ c = '1' ∨ c = '2' ∨ c = '3' then [(20 + dVal c, rest)] else []) ++
      [(2, c :: rest)]
  | '0' :: c :: rest =>
    (if isDigitC c then [(dVal c, rest)] else []) ++ [(0, c :: rest)]
  | '1' :: c :: rest =>
    (if isDigitC c then [(10 + dVal c, rest)] else []) ++ [(1, c :: rest)]
  | c :: rest =>
    if isDigitC c then [(dVal c, rest)] else []
  | [] => []

/-- Alternatives of `_strptime`'s regex for `%M`: `[0-5]\d|\d`. -/
def minAlts : List Char → List (Nat × List Char)
  | c :: e :: rest =>
    (if '0' ≤ c ∧ c ≤ '5' ∧ isDigitC e then [(dVal c * 10 + dVal e, rest)] else []) ++
      (if isDigitC c then [(dVal c, e :: rest)] else [])
  | [c] => if isDigitC c then [(dVal c, [])] else []
  | [] => []

/-- The regex match of `datetime.strptime(s, "%Y-%m-%d %H:%M")`: `%Y` is four
digits, literal `-` and `:`, whitespace in the format matches `\s+`, the
whole string must be consumed, and field alternations backtrack in order. -/
def parseYmdHM (cs : List Char) : Option DT :=
  match cs with
  | y1 :: y2 :: y3 :: y4 :: '-' :: r1 =>
    if isDigitC y1 ∧ isDigitC y2 ∧ isDigitC y3 ∧ isDigitC y4 then
      let y := ((dVal y1 * 10 + dVal y2) * 10 + dVal y3) * 10 + dVal y4
      (mAlts r1).findSome? fun mr =>
        match mr.2 with
        | '-' :: r3 =>
          (dAlts r3).findSome? fun dr =>
            let k := wsCount dr.2
            if k = 0 then none
            else
              (hAlts (dr.2.drop k)).findSome? fun hr =>
                match hr.2 with
                | ':' :: r6 =>
                  (minAlts r6).findSome? fun nr =>
                    if nr.2 = [] then some ⟨y, mr.1, dr.1, hr.1, nr.1⟩ else none
                | _ => none
        | _ => none
    else none
  | _ => none

/-- Embeds `datetime.strptime(s, "%Y-%m-%d %H:%M")`: a regex mismatch or an
out-of-range date (e.g. February 30) raises `ValueError`, modelled as
`.error`. -/
def strptime16 (s : String) : Except Unit DT :=
  match parseYmdHM s.toList with
  | none => .error ()
  | some d => if validDT d then .ok d else .error ()

/-- Embeds `parse_datetime` (parsers.py): a 10-character datestamp gets a
time of `23:59` appended for a due date (`date_type = "<"`) and `00:01`
otherwise; a 16-character string is handed to `strptime`; any other length
yields `None`. -/
def parse_datetime (s : String) (date_type : String) : Except Unit (Option DT) :=
  let s2 := if s.length = 10 then
      s ++ " " ++ (if date_type = "<" then "23:59" else "00:01")
    else s
  if s2.length = 16 then
    match strptime16 s2 with
    | .error e => .error e
    | .ok d => .ok (some d)
  else .ok none

/-- A matcher stands for a compiled regex applied at the start of a suffix:
it yields the number of characters consumed and a captured payload. -/
def Matcher (α : Type) : Type := List Char → Option (Nat × α)

/-- Fuelled scanner for `re.finditer`; each step either consumes a match or
advances one character, so fuel equal to the input length always suffices. -/
def finditerAux {α : Type} (m : Matcher α) : Nat → List Char → List α
  | 0, _ => []
  | _, [] => []
  | fuel + 1, c :: rest =>
    match m (c :: rest) with
    | some (n, a) => a :: finditerAux m fuel (rest.drop (n.max 1 - 1))
    | none => finditerAux m fuel rest

/-- Embeds `re.finditer`: scan left to right, collecting non-overlapping
matches; on a match, resume after its end, otherwise advance one character. -/
def finditer {α : Type} (m : Matcher α) (cs : List Char) : List α :=
  finditerAux m cs.length cs

/-- Fuelled scanner for `re.sub(pattern, "", text)`. -/
def subAllAux {α : Type} (m : Matcher α) : Nat → List Char → List Char
  | 0, cs => cs
  | _, [] => []
  | fuel + 1, c :: rest =>
    match m (c :: rest) with
    | some (n, _) => subAllAux m fuel (rest.drop (n.max 1 - 1))
    | none => c :: subAllAux m fuel rest

/-- Embeds `re.sub(pattern, "", text)`: delete every non-overlapping match,
copying unmatched characters through. -/
def subAll {α : Type} (m : Matcher α) (cs : List Char) : List Char :=
  subAllAux m cs.length cs

/-- Embeds `re.search`: the payload of the leftmost match, if any. -/
def searchM {α : Type} (m : Matcher α) : List Char → Option α
  | [] => none
  | c :: rest =>
    match m (c :: rest) with
    | some (_, a) => some a
    | none => searchM m rest

/-- Matcher for `\s+@{1,2}(?P<context>\w+)` (the `finditer` pattern of
`parse_and_strip_contexts`): captures the context name. -/
def ctxFindM : Matcher String := fun cs =>
  let k := wsCount cs
  if k = 0 then none
  else
    match cs.drop k with
    | '@' :: '@' :: rest =>
      let w := rest.takeWhile isWordC
      if w = [] then none else some (k + 2 + w.length, String.mk w)
    | '@' :: rest =>
      let w := rest.takeWhile isWordC
      if w = [] then none else some (k + 1 + w.length, String.mk w)
    | _ => none

/-- Matcher for `\s+@\w+` (the single-`@` strip pattern of
`parse_and_strip_contexts`). -/
def ctxStripM : Matcher Unit := fun cs =>
  let k := wsCount cs
  if k = 0 then none
  else
    match cs.drop k with
    | '@' :: '@' :: _ => none
    | '@' :: rest =>
      let w := rest.takeWhile isWordC
      if w = [] then none else some (k + 1 + w.length, ())
    | _ => none

/-- Matcher for the literal `@@`. -/
def atatM : Matcher Unit := fun cs =>
  match cs with
  | '@' :: '@' :: _ => some (2, ())
  | _ => none

/-- The anchored strip `re.sub('^\s*[-*#@]\s*', '', text)`: leading
whitespace, one list-marker character, trailing whitespace — removed only
when a marker is present. -/
def stripLeadMarker (cs : List Char) : List Char :=
  match cs.drop (wsCount cs) with
  | c :: r =>
    if c = '-' ∨ c = '*' ∨ c = '#' ∨ c = '@' then r.drop (wsCount r) else cs
  | [] => cs

/-- Embeds `parse_and_strip_contexts` (parsers.py): collect `@name`/`@@name`
tokens in order of appearance, delete all `\s+@\w+` matches, delete all
literal `@@`, then strip an opening list marker. -/
def parse_and_strip_contexts (text : String) : String × List String :=
  let cs := text.toList
  let contexts := finditer ctxFindM cs
  let s1 := subAll ctxStripM cs
  let s2 := subAll atatM s1
  (String.mk (stripLeadMarker s2), contexts)

/-- Modelled from the spec: the injected configuration regex
`g:vtd_datetime_regex` is not part of this file; per the spec it captures a
`datetime` group whose accepted literal forms are a 10-character date or a
16-character "date space time" string, i.e.
`(?P<datetime>\d{4}-\d{2}-\d{2}( \d{2}:\d{2})?)`.  This parses the
`\d{4}-\d{2}-\d{2}` date part, returning the matched characters and the
rest. -/
def dateDigits (cs : List Char) : Option (List Char × List Char) :=
  match cs with
  | a :: b :: c :: d :: '-' :: e :: f :: '-' :: g :: h :: rest =>
    if isDigitC a ∧ isDigitC b ∧ isDigitC c ∧ isDigitC d ∧ isDigitC e ∧
        isDigitC f ∧ isDigitC g ∧ isDigitC h then
      some ([a, b, c, d, '-', e, f, '-', g, h], rest)
    else none
  | _ => none

/-- The optional `( \d{2}:\d{2})?` time part of the modelled datetime regex. -/
def timeDigits (cs : List Char) : Option (List Char × List Char) :=
  match cs with
  | ' ' :: a :: b :: ':' :: c :: d :: rest =>
    if isDigitC a ∧ isDigitC b ∧ isDigitC c ∧ isDigitC d then
      some ([' ', a, b, ':', c, d], rest)
    else none
  | _ => none

/-- Matcher for the `parse_and_strip_dates` pattern
`\s+(?P<type>[<>])` + datetime regex: captures the marker type and the
datetime group (greedy optional time). -/
def datePatM : Matcher (Char × String) := fun cs =>
  let k := wsCount cs
  if k = 0 then none
  else
    match cs.drop k with
    | c :: rest =>
      if c = '<' ∨ c = '>' then
        match dateDigits rest with
        | some (d10, r1) =>
          match timeDigits r1 with
          | some (t6, _) => some (k + 1 + 16, (c, String.mk (d10 ++ t6)))
          | none => some (k + 1 + 10, (c, String.mk d10))
        | none => none
      else none
    | [] => none

/-- The assignment loop of `parse_and_strip_dates`: each `>` match sets the
visible stamp, each `<` match the due stamp (last match wins); a
`ValueError` from `parse_datetime` propagates. -/
def pasdLoop : List (Char × String) → Option DT → Option DT →
    Except Unit (Option DT × Option DT)
  | [], vis, due => .ok (vis, due)
  | (t, ds) :: rest, vis, due =>
    if t = '>' then
      match parse_datetime ds (String.mk [t]) with
      | .error e => .error e
      | .ok v => pasdLoop rest v due
    else if t = '<' then
      match parse_datetime ds (String.mk [t]) with
      | .error e => .error e
      | .ok d => pasdLoop rest vis d
    else pasdLoop rest vis due

/-- Embeds `parse_and_strip_dates` (parsers.py): find all vis/due date
tokens, parse them (a `ValueError` from `strptime` propagates as `.error`),
and strip every match from the text. -/
def parse_and_strip_dates (text : String) :
    Except Unit (String × Option DT × Option DT) :=
  let cs := text.toList
  match pasdLoop (finditer datePatM cs) none none with
  | .error e => .error e
  | .ok (vis, due) => .ok (String.mk (subAll datePatM cs), vis, due)

/-- The anchored strip `re.sub('^\s*@\s+', '', line)` in `add_NextAction`. -/
def stripLeadAt (s : String) : String :=
  let cs := s.toList
  match cs.drop (wsCount cs) with
  | '@' :: r2 =>
    let k := wsCount r2
    if k = 0 then s else String.mk (r2.drop k)
  | _ => s

/-- A stored NextAction, mirroring the dict built by `Plate.add_NextAction`. -/
structure NAction where
  name : String
  TS_vis : Option DT
  TS_due : Option DT
  jump_to : String
  contexts : List String
deriving DecidableEq

/-- Embeds `Plate.add_NextAction` (parsers.py): refuse a done line (returning
`False` and leaving the store untouched); otherwise strip contexts and
dates (whose parsing may raise) and append the new item under the next key. -/
def add_NextAction (next_actions : List NAction) (linenum : Nat) (line : String) :
    Except Unit (Bool × List NAction) :=
  if item_done line then .ok (false, next_actions)
  else
    let pc := parse_and_strip_contexts line
    match parse_and_strip_dates pc.1 with
    | .error e => .error e
    | .ok (line2, vis, due) =>
      .ok (true, next_actions ++
        [⟨stripLeadAt line2, vis, due, "p" ++ toString linenum, pc.2⟩])

/-- The element loop of `Plate.contexts_ok`: an avoided context returns
`False` immediately; a used context sets the match flag; at the end the
flag is OR-ed with `include_anon`. -/
def contexts_okAux (use avoid : List String) (include_anon : Bool) :
    Bool → List String → Bool
  | m, [] => m || include_anon
  | m, c :: rest =>
    if avoid.contains c then false
    else contexts_okAux use avoid include_anon (m || use.contains c) rest

/-- Embeds `Plate.contexts_ok` (parsers.py). -/
def contexts_ok (use avoid : List String) (contexts : List String)
    (include_anon : Bool) : Bool :=
  contexts_okAux use avoid include_anon false contexts

/-- Digit characters to a number (as Python `int()` on the captured group). -/
def digitsToNat (cs : List Char) : Nat :=
  cs.foldl (fun a c => a * 10 + dVal c) 0

/-- The `\s+\+(?P<break>\d+),(?P<window>\d+)` tail of the `_TS_inbox`
pattern: consumed length plus the break and window day counts. -/
def plusPart (cs : List Char) : Option (Nat × Nat × Nat) :=
  let k := wsCount cs
  if k = 0 then none
  else
    match cs.drop k with
    | '+' :: r1 =>
      let b := r1.takeWhile isDigitC
      if b = [] then none
      else
        match r1.drop b.length with
        | ',' :: r2 =>
          let w := r2.takeWhile isDigitC
          if w = [] then none
          else some (k + 1 + b.length + 1 + w.length, digitsToNat b, digitsToNat w)
        | _ => none
    | _ => none

/-- Matcher for `Plate._TS_inbox`: the (modelled) datetime regex followed by
`\s+\+(?P<break>\d+),(?P<window>\d+)`; the greedy optional time part
backtracks when the `+break,window` tail does not follow it. -/
def tsInboxM : Matcher (String × Nat × Nat) := fun cs =>
  match dateDigits cs with
  | none => none
  | some (d10, r1) =>
    let withTime :=
      match timeDigits r1 with
      | some (t6, r2) =>
        match plusPart r2 with
        | some (n2, b, w) => some (16 + n2, (String.mk (d10 ++ t6), b, w))
        | none => none
      | none => none
    match withTime with
    | some x => some x
    | none =>
      match plusPart r1 with
      | some (n2, b, w) => some (10 + n2, (String.mk d10, b, w))
      | none => none

/-- Matcher for `Plate._TS_remind`: `\s*REMIND\s*` followed by the (modelled)
datetime regex; captures the datetime group. -/
def tsRemindM : Matcher String := fun cs =>
  let k := wsCount cs
  match cs.drop k with
  | 'R' :: 'E' :: 'M' :: 'I' :: 'N' :: 'D' :: r1 =>
    let k2 := wsCount r1
    match dateDigits (r1.drop k2) with
    | some (d10, r2) =>
      match timeDigits r2 with
      | some (t6, _) => some (k + 6 + k2 + 16, String.mk (d10 ++ t6))
      | none => some (k + 6 + k2 + 10, String.mk d10)
    | none => none
  | _ => none

/-- One calendar day later (Python `datetime + timedelta(days=1)`), keeping
the time of day. -/
def succDay (d : DT) : DT :=
  if d.day < daysInMonth d.year d.month then
    ⟨d.year, d.month, d.day + 1, d.hour, d.minute⟩
  else if d.month < 12 then ⟨d.year, d.month + 1, 1, d.hour, d.minute⟩
  else ⟨d.year + 1, 1, 1, d.hour, d.minute⟩

/-- Python `datetime + timedelta(days=k)`. -/
def addDays (d : DT) : Nat → DT
  | 0 => d
  | k + 1 => succDay (addDays d k)

/-- Chronological (lexicographic) strict order on timestamps, the order
`datetime.__lt__` uses. -/
def dtLt (a b : DT) : Prop :=
  a.year < b.year ∨ (a.year = b.year ∧ (a.month < b.month ∨ (a.month = b.month ∧
    (a.day < b.day ∨ (a.day = b.day ∧ (a.hour < b.hour ∨ (a.hour = b.hour ∧
      a.minute < b.minute)))))))

/-- Chronological order on timestamps (`datetime.__le__`). -/
def dtLe (a b : DT) : Prop :=
  dtLt a b ∨ a = b

instance (a b : DT) : Decidable (dtLt a b) := by
  unfold dtLt
  exact inferInstance

instance (a b : DT) : Decidable (dtLe a b) := by
  unfold dtLe
  exact inferInstance

/-- A stored inbox item, mirroring the dict built by `Plate.read_inboxes`. -/
structure InboxItem where
  name : String
  TS_last : DT
  TS_vis : DT
  TS_due : DT
  jump_to : String
  contexts : List String
deriving DecidableEq

/-- A stored reminder, mirroring the dict built by `Plate.read_inboxes`. -/
structure Reminder where
  name : String
  TS : Option DT
  jump_to : String
  contexts : List String
deriving DecidableEq

/-- Modelled from the spec: the section-header patterns
(`g:vtd_section_inbox`, `g:vtd_section_thoughts`, `g:vtd_section_reminders`)
are injected configuration, modelled as arbitrary predicates standing for
`re.match` against those patterns. -/
structure Config where
  secInbox : String → Bool
  secThoughts : String → Bool
  secRemind : String → Bool

/-- A `while linenum and not re.match(pat, line): read` loop of
`Plate.read_inboxes` (with `read_and_count_lines` unfolded at end of
input). -/
def skipUntil (p : String → Bool) : Nat → String → List String →
    Nat × String × List String
  | n, l, f =>
    if n = 0 ∨ p l then (n, l, f)
    else
      match f with
      | [] => (0, "", [])
      | l2 :: rest => skipUntil p (n + 1) l2 rest

/-- The inbox-entry loop of `Plate.read_inboxes`: until the Thoughts header,
a line matching `_TS_inbox` is stored with `TS_vis = last_emptied + break`
days and `TS_due = TS_vis + window` days; an unparseable stamp raises
(`ValueError` from `strptime`, or `TypeError` adding a timedelta to
`None`). -/
def inboxLoop (cfg : Config) : Nat → String → List String → List InboxItem →
    Except Unit (Nat × String × List String × List InboxItem)
  | n, l, f, acc =>
    if n = 0 ∨ cfg.secThoughts l then .ok (n, l, f, acc)
    else
      match searchM tsInboxM l.toList with
      | none =>
        match f with
        | [] => .ok (0, "", [], acc)
        | l2 :: rest => inboxLoop cfg (n + 1) l2 rest acc
      | some (ds, b, w) =>
        let pc := parse_and_strip_contexts l
        match parse_datetime ds "" with
        | .error e => .error e
        | .ok none => .error ()
        | .ok (some le) =>
          let vis := addDays le b
          let due := addDays vis w
          let item : InboxItem :=
            ⟨String.mk (subAll tsInboxM pc.1.toList), le, vis, due,
              "i" ++ toString n, pc.2⟩
          match f with
          | [] => .ok (0, "", [], acc ++ [item])
          | l2 :: rest => inboxLoop cfg (n + 1) l2 rest (acc ++ [item])

/-- The reminder loop of `Plate.read_inboxes`: until end of input, a line
matching `_TS_remind` is stored with its (possibly absent) timestamp. -/
def remindLoop : Nat → String → List String → List Reminder →
    Except Unit (List Reminder)
  | n, l, f, acc =>
    if n = 0 then .ok acc
    else
      match searchM tsRemindM l.toList with
      | none =>
        match f with
        | [] => .ok acc
        | l2 :: rest => remindLoop (n + 1) l2 rest acc
      | some ds =>
        let pc := parse_and_strip_contexts l
        match parse_datetime ds "" with
        | .error e => .error e
        | .ok w =>
          let item : Reminder :=
            ⟨String.mk (subAll tsRemindM pc.1.toList), w, "i" ++ toString n, pc.2⟩
          match f with
          | [] => .ok (acc ++ [item])
          | l2 :: rest => remindLoop (n + 1) l2 rest (acc ++ [item])

/-- Embeds `Plate.read_inboxes` (parsers.py): skip to the Inboxes header,
skip the header line, read inbox entries until the Thoughts header, skip to
the Reminders header, skip the header line, read reminders until end of
input. -/
def read_inboxes (cfg : Config) (lines : List String) :
    Except Unit (List InboxItem × List Reminder) :=
  let s0 := read_and_count_lines 0 lines
  let s1 := skipUntil cfg.secInbox s0.1.1 s0.1.2 s0.2
  let s2 := read_and_count_lines s1.1 s1.2.2
  match inboxLoop cfg s2.1.1 s2.1.2 s2.2 [] with
  | .error e => .error e
  | .ok (n3, l3, f3, items) =>
    let s4 := skipUntil cfg.secRemind n3 l3 f3
    let s5 := read_and_count_lines s4.1 s4.2.2
    match remindLoop s5.1.1 s5.1.2 s5.2 [] with
    | .error e => .error e
    | .ok rems => .ok (items, rems)

/-- The value returned by one invocation of `Plate.process_outline`: the
unconsumed line/position, the rest of the input, and the accumulated
next-action store. -/
structure POResult where
  linenum : Nat
  line : String
  rest : List String
  actions : List NAction
deriving DecidableEq

/-- Embeds the `while linenum` loop of `Plate.process_outline` (parsers.py).
Arguments: fuel (the loop and its recursion are given explicit fuel;
sufficiency is proved below), the master indent and list type of the run,
the `blocker_started`/`blocker_finished`/`parent_done` flags, then the
current line number, line, remaining input and next-action store.  A nested
list is handled by a recursive invocation with freshly computed master
indent and list type, as in the source; `print` statements are skipped. -/
def processLoop : Nat → Nat → Option Char → Bool → Bool → Bool →
    Nat → String → List String → List NAction → Option (Except Unit POResult)
  | 0, _, _, _, _, _, _, _, _, _ => none
  | fuel + 1, mi, lt, bs, bf, pd, linenum, line, f, acc =>
    if linenum = 0 then some (.ok ⟨linenum, line, f, acc⟩)
    else
      let indent := opening_whitespace line
      if indent < mi then some (.ok ⟨linenum, line, f, acc⟩)
      else if lt = some '#' ∧ bf = true then
        let r := read_and_count_lines linenum f
        processLoop fuel mi lt bs bf pd r.1.1 r.1.2 r.2 acc
      else if mi < indent then
        if pd = true then
          let r := read_and_count_lines linenum f
          processLoop fuel mi lt bs bf pd r.1.1 r.1.2 r.2 acc
        else
          match list_start line with
          | some _ =>
            match processLoop fuel (opening_whitespace line) (list_start line)
                false false false linenum line f acc with
            | none => none
            | some (.error e) => some (.error e)
            | some (.ok r1) =>
              processLoop fuel mi lt bs bf pd r1.linenum r1.line r1.rest r1.actions
          | none =>
            let r := read_and_count_lines linenum f
            processLoop fuel mi lt bs bf pd r.1.1 r.1.2 r.2 acc
      else
        if bs = true then
          processLoop fuel mi lt bs true pd linenum line f acc
        else
          let pd2 := item_done line
          let bs2 := if pd2 then bs else (if lt = some '#' then true else bs)
          if is_next_action line then
            match add_NextAction acc linenum line with
            | .error e => some (.error e)
            | .ok r2 =>
              let r := read_and_count_lines linenum f
              processLoop fuel mi lt bs2 bf pd2 r.1.1 r.1.2 r.2 r2.2
          else
            let r := read_and_count_lines linenum f
            processLoop fuel mi lt bs2 bf pd2 r.1.1 r.1.2 r.2 acc

/-- Embeds the entry of `Plate.process_outline`: compute the master indent
and list type from the first line of the run, with all flags cleared. -/
def process_outline (fuel : Nat) (linenum : Nat) (line : String)
    (f : List String) (acc : List NAction) : Option (Except Unit POResult) :=
  processLoop fuel (opening_whitespace line) (list_start line) false false false
    linenum line f acc

/-- The four item collections of a `Plate` (the `recurs` collection is never
populated by this file: the RECUR branch only prints). -/
structure PlateS where
  inboxes : List InboxItem
  next_actions : List NAction
  recurs : List Unit
  reminders : List Reminder
deriving DecidableEq

/-- `Plate.add_NextAction` seen at the level of the whole `Plate`: the
method reads and writes only `self.next_actions`. -/
def add_NextAction_plate (p : PlateS) (linenum : Nat) (line : String) :
    Except Unit (Bool × PlateS) :=
  match add_NextAction p.next_actions linenum line with
  | .error e => .error e
  | .ok (b, na) => .ok (b, { p with next_actions := na })

/-- Whether an `Except` computation finished without raising. -/
def isOkE {α : Type} : Except Unit α → Bool
  | .ok _ => true
  | .error _ => false

deriving instance DecidableEq for Except

/-- A concrete configuration for end-to-end examples: literal header lines. -/
def cfgC : Config :=
  ⟨fun l => l = "= Inboxes =", fun l => l = "= Thoughts =",
    fun l => l = "= Reminders ="⟩

/-- A concrete Inboxes file with one entry (`+2,3`, last emptied
2020-01-01 00:01). -/
def inboxLinesC : List String :=
  ["= Inboxes =", "- Email 2020-01-01 00:01 +2,3", "= Thoughts ="]

/-- Flatten a list of leading list-run groups — a sibling line together
with its more-indented child block — in front of a tail of further lines
(used to state the ordered-list blocking claim). -/
def flatGroups : List (String × List String) → List String → List String
  | [], tail => tail
  | (d, kids) :: gs, tail => d :: (kids ++ flatGroups gs tail)

/-- Bool-level characterization of the `contexts_ok` element loop. -/
theorem contexts_okAux_eq (use avoid : List String) (anon : Bool) :
    ∀ (cs : List String) (m : Bool),
      contexts_okAux use avoid anon m cs =
        ((cs.all fun c => !avoid.contains c) &&
          (m || anon || cs.any fun c => use.contains c)) := by
  intro cs
  induction cs with
  | nil => intro m; simp [contexts_okAux]
  | cons c rest ih =>
    intro m
    by_cases h : c ∈ avoid
    · simp [contexts_okAux, h]
    · by_cases hc : c ∈ use <;> simp [contexts_okAux, h, hc, ih]

/-- C3 (amended): an item passes the context filter iff none of its contexts
is avoided and — only when `include_anon` is false, i.e. for Next Actions
and Inboxes — at least one of its contexts is in the use list; with
`include_anon` (the Reminders display) the use list is irrelevant, so a
reminder with any non-avoided contexts is shown, not only one with no
contexts at all. -/
theorem C3_contexts_ok_characterization :
    ∀ use avoid cs : List String,
      (contexts_ok use avoid cs false = true ↔
        (∀ c ∈ cs, c ∉ avoid) ∧ ∃ c ∈ cs, c ∈ use) ∧
      (contexts_ok use avoid cs true = true ↔ ∀ c ∈ cs, c ∉ avoid) := by
  intro use avoid cs
  constructor
  · rw [contexts_ok, contexts_okAux_eq]
    simp
  · rw [contexts_ok, contexts_okAux_eq]
    simp

/-- C3 counterexample: with empty use and avoid lists, a Reminder carrying
the single context `x` is shown (`contexts_ok` is true with
`include_anon`), although `x` is not in the use list and the context list
is not empty — contradicting "shown only if it has at least one context in
use, except when it has no contexts at all". -/
theorem C3_counterexample :
    contexts_ok [] [] ["x"] true = true ∧
    ("x" ∈ ([] : List String) → False) ∧ (["x"] ≠ ([] : List String)) := by
  decide

/-- C3 witness: an item with contexts `{home}` is shown when `use = {home}`
and `avoid` is empty. -/
theorem C3_witness : contexts_ok ["home"] [] ["home"] false = true :=
  (C3_contexts_ok_characterization ["home"] [] ["home"]).1.mpr
    ⟨by decide, "home", by decide, by decide⟩

/-- C7 counterexample: an elapsed time of 90 seconds renders "1 minute"
(Python 2 integer division, 90 / 60 = 1), not "2 minutes". -/
theorem C7_counterexample : pretty_date 90 ≠ "2 minutes" := by decide

/-- C7 (amended): the pretty-date buckets as computed by the code — 5 s is
"just now", 90 s is "1 minute" (not "2 minutes"), 90000 s is "1 day",
20 days is "2 weeks", 400 days is "1 year" — and pluralization renders
"1 unit" for count 1 and "N units" (default plural singular + "s")
otherwise. -/
theorem C7_pretty_date_buckets :
    pretty_date 5 = "just now" ∧ pretty_date 90 = "1 minute" ∧
    pretty_date 90000 = "1 day" ∧ pretty_date (20 * 86400) = "2 weeks" ∧
    pretty_date (400 * 86400) = "1 year" ∧
    (∀ s : String, pluralize 1 s none = "1 " ++ s) ∧
    (∀ (n : Int) (s : String), n ≠ 1 →
      pluralize n s none = toString n ++ " " ++ s ++ "s") := by
  refine ⟨by decide, by decide, by decide, by decide, by decide, ?_, ?_⟩
  · intro s
    show toString (1 : Int) ++ " " ++ s = "1 " ++ s
    rw [show (toString (1 : Int) ++ " " : String) = "1 " from by decide]
  · intro n s h
    simp [pluralize, h, String.append_assoc]

/-- C7 witness: the pluralization clause applied at count 3. -/
theorem C7_witness : (3 : Int) ≠ 1 ∧ pluralize 3 "week" none = "3 weeks" := by
  refine ⟨by decide, ?_⟩
  rw [C7_pretty_date_buckets.2.2.2.2.2.2 3 "week" (by decide)]
  decide

/-- C10: a line containing DONE or WONTDO makes `add_NextAction` return
`False` and leave the whole Plate (its `next_actions` and every other
field) unchanged; this check is independent of the caller. -/
theorem C10_add_NextAction_done (p : PlateS) (n : Nat) (line : String)
    (h : item_done line = true) :
    add_NextAction_plate p n line = .ok (false, p) := by
  simp [add_NextAction_plate, add_NextAction, h]

/-- C10 witness: a done line shaped like a next action (so
`process_outline` does call `add_NextAction` on it) is refused with the
Plate unchanged. -/
theorem C10_witness :
    is_next_action "- @ DONE call bank" = true ∧
    add_NextAction_plate ⟨[], [], [], []⟩ 5 "- @ DONE call bank" =
      .ok (false, ⟨[], [], [], []⟩) :=
  ⟨by decide, C10_add_NextAction_done ⟨[], [], [], []⟩ 5 "- @ DONE call bank" (by decide)⟩

/-- If every date token of a match list parses without raising, the
assignment loop of `parse_and_strip_dates` finishes without raising. -/
theorem pasdLoop_ok : ∀ (ms : List (Char × String)) (vis due : Option DT),
    (∀ p ∈ ms, isOkE (parse_datetime p.2 (String.mk [p.1])) = true) →
    isOkE (pasdLoop ms vis due) = true := by
  intro ms
  induction ms with
  | nil => intro vis due _; rfl
  | cons p rest ih =>
    intro vis due h
    obtain ⟨t, ds⟩ := p
    have h1 : isOkE (parse_datetime ds (String.mk [t])) = true := h (t, ds) (by simp)
    have h2 : ∀ q ∈ rest, isOkE (parse_datetime q.2 (String.mk [q.1])) = true :=
      fun q hq => h q (by simp [hq])
    cases hpd : parse_datetime ds (String.mk [t]) with
    | error e => rw [hpd] at h1; simp [isOkE] at h1
    | ok v =>
      by_cases ht : t = '>'
      · simp [pasdLoop, ht, hpd.symm ▸ hpd]
        rw [show String.mk [t] = String.mk ['>'] from by rw [ht]] at hpd
        simp [ht, hpd]
        exact ih _ _ h2
      · by_cases ht2 : t = '<'
        · simp [pasdLoop, ht, ht2]
          rw [show String.mk [t] = String.mk ['<'] from by rw [ht2]] at hpd
          simp [hpd]
          exact ih _ _ h2
        · simp [pasdLoop, ht, ht2]
          exact ih _ _ h2

/-- C6 (amended): `parse_datetime` silently yields `None` for any token
whose length is neither 10 nor 16, and `parse_and_strip_dates` finishes
without raising whenever every matched date token parses; but (see the
counterexample) a matched 10- or 16-character token carrying an invalid
calendar date raises `ValueError` from `strptime`, so the functions are
not total. -/
theorem C6_parse_totality_amended :
    (∀ s t : String, s.length ≠ 10 → s.length ≠ 16 → parse_datetime s t = .ok none) ∧
    (∀ text : String,
      (∀ p ∈ finditer datePatM text.toList,
        isOkE (parse_datetime p.2 (String.mk [p.1])) = true) →
      isOkE (parse_and_strip_dates text) = true) := by
  constructor
  · intro s t h10 h16
    simp [parse_datetime, h10, h16]
  · intro text h
    have hl := pasdLoop_ok (finditer datePatM text.toList) none none h
    unfold parse_and_strip_dates
    cases hp : pasdLoop (finditer datePatM text.toList) none none with
    | error e => rw [hp] at hl; simp [isOkE] at hl
    | ok v =>
      obtain ⟨v1, v2⟩ := v
      simp only [String.toList] at hp ⊢
      rw [hp]
      rfl

/-- C6 counterexample: the date token `<2020-02-30 10:00` matches the date
pattern (it is all digits in the right places) but February 30 is not a
valid calendar date, so `strptime` raises `ValueError` and
`parse_and_strip_dates` propagates it instead of treating the token as
absent. -/
theorem C6_counterexample :
    parse_and_strip_dates "x <2020-02-30 10:00" = .error () := by decide

/-- C6 witness: a wrong-length token yields `None`, and a text whose only
matched token is well-formed is processed without raising. -/
theorem C6_witness :
    parse_datetime "abc" "" = .ok none ∧
    isOkE (parse_and_strip_dates "call bob >2020-01-02") = true :=
  ⟨C6_parse_totality_amended.1 "abc" "" (by decide) (by decide),
    C6_parse_totality_amended.2 "call bob >2020-01-02" (by decide)⟩

/-- Fuel above the input length is irrelevant for the finditer scanner. -/
theorem finditerAux_eq {α : Type} (m : Matcher α) :
    ∀ (fuel : Nat) (cs : List Char), cs.length ≤ fuel →
      finditerAux m fuel cs = finditerAux m cs.length cs := by
  intro fuel
  induction fuel using Nat.strong_induction_on with
  | _ fuel ih =>
    intro cs hle
    cases fuel with
    | zero =>
      cases cs with
      | nil => rfl
      | cons c rest => simp at hle
    | succ j =>
      cases cs with
      | nil => rfl
      | cons c rest =>
        simp only [List.length_cons, finditerAux]
        cases hm : m (c :: rest) with
        | some p =>
          obtain ⟨n, a⟩ := p
          have hd : (rest.drop (n.max 1 - 1)).length ≤ rest.length := by
            simp [List.length_drop]
          have hr : rest.length ≤ j := by simp at hle; omega
          dsimp only
          rw [ih j (by omega) _ (le_trans hd hr)]
          rw [ih rest.length (by omega) _ hd]
        | none =>
          have hr : rest.length ≤ j := by simp at hle; omega
          rw [ih j (by omega) rest hr]

/-- Fuel above the input length is irrelevant for the sub scanner. -/
theorem subAllAux_eq {α : Type} (m : Matcher α) :
    ∀ (fuel : Nat) (cs : List Char), cs.length ≤ fuel →
      subAllAux m fuel cs = subAllAux m cs.length cs := by
  intro fuel
  induction fuel using Nat.strong_induction_on with
  | _ fuel ih =>
    intro cs hle
    cases fuel with
    | zero =>
      cases cs with
      | nil => rfl
      | cons c rest => simp at hle
    | succ j =>
      cases cs with
      | nil => rfl
      | cons c rest =>
        simp only [List.length_cons, subAllAux]
        cases hm : m (c :: rest) with
        | some p =>
          obtain ⟨n, a⟩ := p
          have hd : (rest.drop (n.max 1 - 1)).length ≤ rest.length := by
            simp [List.length_drop]
          have hr : rest.length ≤ j := by simp at hle; omega
          dsimp only
          rw [ih j (by omega) _ (le_trans hd hr)]
          rw [ih rest.length (by omega) _ hd]
        | none =>
          have hr : rest.length ≤ j := by simp at hle; omega
          rw [ih j (by omega) rest hr]

/-- One-step unfolding of `finditer` on a nonempty input. -/
theorem finditer_cons {α : Type} (m : Matcher α) (c : Char) (rest : List Char) :
    finditer m (c :: rest) =
      match m (c :: rest) with
      | some (n, a) => a :: finditer m (rest.drop (n.max 1 - 1))
      | none => finditer m rest := by
  show finditerAux m (rest.length + 1) (c :: rest) = _
  simp only [finditerAux]
  cases hm : m (c :: rest) with
  | some p =>
    obtain ⟨n, a⟩ := p
    have hd : (rest.drop (n.max 1 - 1)).length ≤ rest.length := by
      simp [List.length_drop]
    dsimp only
    rw [finditerAux_eq m rest.length _ hd]
    rfl
  | none => rfl

/-- One-step unfolding of `subAll` on a nonempty input. -/
theorem subAll_cons {α : Type} (m : Matcher α) (c : Char) (rest : List Char) :
    subAll m (c :: rest) =
      match m (c :: rest) with
      | some (n, _) => subAll m (rest.drop (n.max 1 - 1))
      | none => c :: subAll m rest := by
  show subAllAux m (rest.length + 1) (c :: rest) = _
  simp only [subAllAux]
  cases hm : m (c :: rest) with
  | some p =>
    obtain ⟨n, a⟩ := p
    have hd : (rest.drop (n.max 1 - 1)).length ≤ rest.length := by
      simp [List.length_drop]
    dsimp only
    rw [subAllAux_eq m rest.length _ hd]
    rfl
  | none => rfl

/-- When a scan finds no match of `m` and `m2` matches nowhere `m` does not,
substituting `m2` away changes nothing. -/
theorem subAll_id_of_finditer_nil {α β : Type} (m : Matcher α) (m2 : Matcher β)
    (impl : ∀ cs, m cs = none → m2 cs = none) :
    ∀ cs, finditer m cs = [] → subAll m2 cs = cs := by
  intro cs
  induction cs with
  | nil => intro _; rfl
  | cons c rest ih =>
    intro h
    rw [finditer_cons] at h
    cases hm : m (c :: rest) with
    | some p => obtain ⟨n, a⟩ := p; simp [hm] at h
    | none =>
      rw [hm] at h
      rw [subAll_cons, impl _ hm]
      rw [ih h]

/-- Wherever the single-`@` strip pattern `\s+@\w+` matches, the context
pattern `\s+@{1,2}\w+` matches too; contrapositively, a suffix with no
context match has no strip match. -/
theorem ctxFindM_none_strip : ∀ cs : List Char, ctxFindM cs = none → ctxStripM cs = none := by
  intro cs h
  unfold ctxFindM at h
  unfold ctxStripM
  by_cases hk : wsCount cs = 0
  · simp [hk]
  · simp only [hk, if_false] at h ⊢
    split
    · rfl
    · rename_i a1 r1 hex heq
      rw [heq] at h
      split at h
      · rename_i a2 r2 heq2
        injection heq2 with h1 h2
        exact (hex r2 h2).elim
      · rename_i a2 r2 hx2 heq2
        injection heq2 with h1 h2
        subst h2
        by_cases hw : r1.takeWhile isWordC = []
        · simp [hw]
        · simp [hw] at h
      · rename_i a2 hx1 hx2
        exact (hx2 r1 rfl).elim
    · rfl

/-- C5 (amended): `parse_and_strip_contexts` returns the names of all
whitespace-preceded `@name`/`@@name` tokens in order of appearance; a line
with zero context tokens and no literal `@@` anywhere is returned unchanged
apart from list-marker stripping (first conjunct).  However the matched
tokens are not all stripped in full: a single-`@` token is removed
entirely, while for a `@@name` token only the `@@` marker is deleted and
the name remains in the text (second and third conjuncts). -/
theorem C5_contexts_amended :
    (∀ text : String, finditer ctxFindM text.toList = [] →
      finditer atatM text.toList = [] →
      parse_and_strip_contexts text = (String.mk (stripLeadMarker text.toList), [])) ∧
    parse_and_strip_contexts "- foo @home" = ("foo", ["home"]) ∧
    parse_and_strip_contexts "- foo @@home" = ("foo home", ["home"]) := by
  refine ⟨?_, by decide, by decide⟩
  intro text h1 h2
  have e1 : subAll ctxStripM text.toList = text.toList :=
    subAll_id_of_finditer_nil ctxFindM ctxStripM ctxFindM_none_strip _ h1
  show (String.mk (stripLeadMarker (subAll atatM (subAll ctxStripM text.toList))),
      finditer ctxFindM text.toList) =
    (String.mk (stripLeadMarker text.toList), [])
  rw [e1]
  have e2 : subAll atatM text.toList = text.toList :=
    subAll_id_of_finditer_nil atatM atatM (fun _ hh => hh) _ h2
  rw [e2, h1]

/-- C5 counterexample: on `"- foo @@home"` the token `@@home` is matched
(the context `home` is returned), yet the returned text still contains the
name `home` — only the `@@` marker was stripped — so not every matched
token is stripped out of the text. -/
theorem C5_counterexample :
    parse_and_strip_contexts "- foo @@home" = ("foo home", ["home"]) ∧
    hasSub "home".toList "foo home".toList = true := by decide

/-- C5 witness: a line with no context tokens comes back unchanged apart
from list-marker stripping, with an empty context sequence. -/
theorem C5_witness : parse_and_strip_contexts "- plain line" = ("plain line", []) := by
  have h := C5_contexts_amended.1 "- plain line" (by decide) (by decide)
  rw [h]
  decide

/-- Chronological order is transitive (strict part). -/
theorem dtLt_trans {a b c : DT} (h1 : dtLt a b) (h2 : dtLt b c) : dtLt a c := by
  unfold dtLt at *
  omega

/-- Chronological order is transitive. -/
theorem dtLe_trans {a b c : DT} (h1 : dtLe a b) (h2 : dtLe b c) : dtLe a c := by
  cases h1 with
  | inl l1 =>
    cases h2 with
    | inl l2 => exact Or.inl (dtLt_trans l1 l2)
    | inr e2 => exact e2 ▸ Or.inl l1
  | inr e1 => exact e1 ▸ h2

/-- Adding one day strictly advances a timestamp (each rollover bumps a
more significant field). -/
theorem dtLt_succDay (d : DT) : dtLt d (succDay d) := by
  unfold succDay dtLt
  split_ifs with h1 h2 <;> dsimp only <;> omega

/-- Adding days never moves a timestamp backwards. -/
theorem dtLe_addDays (d : DT) (k : Nat) : dtLe d (addDays d k) := by
  induction k with
  | zero => exact Or.inr rfl
  | succ k ih => exact dtLe_trans ih (Or.inl (dtLt_succDay (addDays d k)))

/-- Every item stored by the inbox-entry loop beyond the accumulator has
its visible stamp equal to the last-emptied anchor plus the break days and
its due stamp equal to the visible stamp plus the window days. -/
theorem inboxLoop_items (cfg : Config) :
    ∀ (f : List String) (n : Nat) (l : String) (acc : List InboxItem)
      (res : Nat × String × List String × List InboxItem),
      inboxLoop cfg n l f acc = .ok res →
      ∀ it ∈ res.2.2.2, it ∈ acc ∨
        ∃ le b w, it.TS_last = le ∧ it.TS_vis = addDays le b ∧
          it.TS_due = addDays (addDays le b) w := by
  intro f
  induction f with
  | nil =>
    intro n l acc res h it hit
    rw [inboxLoop] at h
    by_cases h0 : n = 0 ∨ cfg.secThoughts l = true
    · simp only [h0, if_true, if_pos] at h
      cases h
      exact Or.inl hit
    · simp only [h0, if_false] at h
      cases hs : searchM tsInboxM l.toList with
      | none =>
        rw [hs] at h
        cases h
        exact Or.inl hit
      | some p =>
        obtain ⟨ds, b, w⟩ := p
        rw [hs] at h
        dsimp only at h
        cases hpd : parse_datetime ds "" with
        | error e => rw [hpd] at h; cases h
        | ok o =>
          cases o with
          | none => rw [hpd] at h; cases h
          | some le =>
            rw [hpd] at h
            dsimp only at h
            cases h
            rcases List.mem_append.mp hit with hin | hone
            · exact Or.inl hin
            · rcases List.mem_singleton.mp hone with rfl
              exact Or.inr ⟨le, b, w, rfl, rfl, rfl⟩
  | cons l2 rest ih =>
    intro n l acc res h it hit
    rw [inboxLoop] at h
    by_cases h0 : n = 0 ∨ cfg.secThoughts l = true
    · simp only [h0, if_true, if_pos] at h
      cases h
      exact Or.inl hit
    · simp only [h0, if_false] at h
      cases hs : searchM tsInboxM l.toList with
      | none =>
        rw [hs] at h
        exact ih _ _ _ _ h it hit
      | some p =>
        obtain ⟨ds, b, w⟩ := p
        rw [hs] at h
        dsimp only at h
        cases hpd : parse_datetime ds "" with
        | error e => rw [hpd] at h; cases h
        | ok o =>
          cases o with
          | none => rw [hpd] at h; cases h
          | some le =>
            rw [hpd] at h
            dsimp only at h
            rcases ih _ _ _ _ h it hit with hin | hP
            · rcases List.mem_append.mp hin with hin2 | hone
              · exact Or.inl hin2
              · rcases List.mem_singleton.mp hone with rfl
                exact Or.inr ⟨le, b, w, rfl, rfl, rfl⟩
            · exact Or.inr hP

/-- Items stored by `read_inboxes` carry offsets computed from the
last-emptied anchor. -/
theorem read_inboxes_items (cfg : Config) (lines : List String)
    (res : List InboxItem × List Reminder)
    (h : read_inboxes cfg lines = .ok res) :
    ∀ it ∈ res.1, ∃ le b w, it.TS_last = le ∧ it.TS_vis = addDays le b ∧
      it.TS_due = addDays (addDays le b) w := by
  intro it hit
  unfold read_inboxes at h
  dsimp only at h
  split at h
  · cases h
  · rename_i val n3 l3 f3 items heq
    split at h
    · cases h
    · rename_i val2 rems heq2
      cases h
      rcases inboxLoop_items cfg _ _ _ _ _ heq it hit with hin | hP
      · cases hin
      · exact hP

/-- C4: every inbox entry stored by `read_inboxes` has
`TS_vis = last_emptied + break` days and `TS_due = TS_vis + window` days. -/
theorem C4_read_inboxes_offsets (cfg : Config) (lines : List String)
    (res : List InboxItem × List Reminder)
    (h : read_inboxes cfg lines = .ok res) :
    ∀ it ∈ res.1, ∃ le b w, it.TS_last = le ∧ it.TS_vis = addDays le b ∧
      it.TS_due = addDays (addDays le b) w :=
  read_inboxes_items cfg lines res h

/-- C4 witness: the end-to-end example — one entry with `+2,3` and a
last-emptied stamp of 2020-01-01 00:01 yields
`TS_vis = 2020-01-03 00:01` and `TS_due = 2020-01-06 00:01`. -/
theorem C4_witness :
    read_inboxes cfgC inboxLinesC =
      .ok ([⟨"Email ", ⟨2020, 1, 1, 0, 1⟩, ⟨2020, 1, 3, 0, 1⟩,
        ⟨2020, 1, 6, 0, 1⟩, "i2", []⟩], []) ∧
    (⟨2020, 1, 3, 0, 1⟩ : DT) = addDays ⟨2020, 1, 1, 0, 1⟩ 2 ∧
    (⟨2020, 1, 6, 0, 1⟩ : DT) = addDays (addDays ⟨2020, 1, 1, 0, 1⟩ 2) 3 ∧
    ∃ le b w,
      (⟨"Email ", ⟨2020, 1, 1, 0, 1⟩, ⟨2020, 1, 3, 0, 1⟩,
        ⟨2020, 1, 6, 0, 1⟩, "i2", []⟩ : InboxItem).TS_last = le ∧
      (⟨"Email ", ⟨2020, 1, 1, 0, 1⟩, ⟨2020, 1, 3, 0, 1⟩,
        ⟨2020, 1, 6, 0, 1⟩, "i2", []⟩ : InboxItem).TS_vis = addDays le b ∧
      (⟨"Email ", ⟨2020, 1, 1, 0, 1⟩, ⟨2020, 1, 3, 0, 1⟩,
        ⟨2020, 1, 6, 0, 1⟩, "i2", []⟩ : InboxItem).TS_due =
        addDays (addDays le b) w := by
  have he : read_inboxes cfgC inboxLinesC =
      .ok ([⟨"Email ", ⟨2020, 1, 1, 0, 1⟩, ⟨2020, 1, 3, 0, 1⟩,
        ⟨2020, 1, 6, 0, 1⟩, "i2", []⟩], []) := by decide
  exact ⟨he, by decide, by decide,
    C4_read_inboxes_offsets cfgC inboxLinesC _ he _ (by simp)⟩

/-- C8 (amended): for InboxItems — whose due stamp is computed from the
same anchor plus non-negative day offsets — the due timestamp is at or
after the visible timestamp; Reminders carry a single timestamp, so the
claim is vacuous for them; but NextActions (see the counterexample) carry
two independently annotated stamps and can violate the invariant. -/
theorem C8_inbox_due_after_visible (cfg : Config) (lines : List String)
    (res : List InboxItem × List Reminder)
    (h : read_inboxes cfg lines = .ok res) :
    ∀ it ∈ res.1, dtLe it.TS_vis it.TS_due := by
  intro it hit
  obtain ⟨le, b, w, h1, h2, h3⟩ := read_inboxes_items cfg lines res h it hit
  rw [h2, h3]
  exact dtLe_addDays (addDays le b) w

/-- C8 counterexample: a stored NextAction whose visible annotation
(`>2020-05-05`) is later than its due annotation (`<2020-01-01`): both
stamps are present and the due timestamp is strictly before the visible
one. -/
theorem C8_counterexample :
    add_NextAction [] 7 "- @ x >2020-05-05 <2020-01-01" =
      .ok (true, [⟨"x", some ⟨2020, 5, 5, 0, 1⟩, some ⟨2020, 1, 1, 23, 59⟩,
        "p7", []⟩]) ∧
    dtLt ⟨2020, 1, 1, 23, 59⟩ ⟨2020, 5, 5, 0, 1⟩ ∧
    ¬ dtLe ⟨2020, 5, 5, 0, 1⟩ ⟨2020, 1, 1, 23, 59⟩ := by
  refine ⟨by decide, by decide, by decide⟩

/-- C8 witness: the inbox invariant at the concrete end-to-end example. -/
theorem C8_witness : dtLe ⟨2020, 1, 3, 0, 1⟩ ⟨2020, 1, 6, 0, 1⟩ :=
  C8_inbox_due_after_visible cfgC inboxLinesC
    ([⟨"Email ", ⟨2020, 1, 1, 0, 1⟩, ⟨2020, 1, 3, 0, 1⟩,
      ⟨2020, 1, 6, 0, 1⟩, "i2", []⟩], []) (by decide)
    ⟨"Email ", ⟨2020, 1, 1, 0, 1⟩, ⟨2020, 1, 3, 0, 1⟩,
      ⟨2020, 1, 6, 0, 1⟩, "i2", []⟩ (by simp)

/-- List-level form of the done check in `add_NextAction`: a done line is
refused with the store unchanged (and no date parsing is attempted, so no
exception can escape). -/
theorem add_NextAction_done (acc : List NAction) (n : Nat) (line : String)
    (h : item_done line = true) : add_NextAction acc n line = .ok (false, acc) := by
  simp [add_NextAction, h]

/-- With `parent_done` set, the loop consumes every more-indented line —
advancing the cursor, extracting nothing, never recursing — until the
stream reaches any other line. -/
theorem processLoop_skip_done (mi : Nat) (lt : Option Char) (bs : Bool) :
    ∀ (kids : List String) (fuel n : Nat) (l0 l2 : String)
      (f2 : List String) (acc : List NAction),
      mi < opening_whitespace l0 →
      (∀ x ∈ kids, mi < opening_whitespace x) →
      n ≠ 0 →
      processLoop (fuel + (kids.length + 1)) mi lt bs false true n l0
          (kids ++ l2 :: f2) acc =
        processLoop fuel mi lt bs false true (n + kids.length + 1) l2 f2 acc := by
  intro kids
  induction kids with
  | nil =>
    intro fuel n l0 l2 f2 acc h0 hk hn
    show processLoop (fuel + 1) mi lt bs false true n l0 (l2 :: f2) acc = _
    have hnl : ¬ (opening_whitespace l0 < mi) := by omega
    simp [processLoop, hn, hnl, h0, read_and_count_lines]
  | cons k ks ih =>
    intro fuel n l0 l2 f2 acc h0 hk hn
    show processLoop ((fuel + (ks.length + 1)) + 1) mi lt bs false true n l0
        (k :: (ks ++ l2 :: f2)) acc = _
    have hnl : ¬ (opening_whitespace l0 < mi) := by omega
    rw [show processLoop ((fuel + (ks.length + 1)) + 1) mi lt bs false true n l0
        (k :: (ks ++ l2 :: f2)) acc =
      processLoop (fuel + (ks.length + 1)) mi lt bs false true (n + 1) k
        (ks ++ l2 :: f2) acc from by
        simp [processLoop, hn, hnl, h0, read_and_count_lines]]
    rw [ih fuel (n + 1) k l2 f2 acc (hk k (by simp)) (fun x hx => hk x (by simp [hx]))
      (by omega)]
    rw [show n + 1 + ks.length + 1 = n + (ks.length + 1) + 1 from by omega]
    simp

/-- C2: a sibling at the master indent marked done/abandoned makes the loop
skip its whole more-indented subtree: the run on the done sibling followed
by its children is the run resumed at the next line, with the same
next-action store (nothing extracted, no recursion into the children) and
the line cursor advanced past every skipped line. -/
theorem C2_done_parent_skips (mi : Nat) (lt : Option Char) (pd : Bool)
    (fuel n : Nat) (ld l2 : String) (kids f2 : List String) (acc : List NAction)
    (hmi : opening_whitespace ld = mi)
    (hdone : item_done ld = true)
    (hkids : ∀ x ∈ kids, mi < opening_whitespace x)
    (hn : n ≠ 0) :
    processLoop (fuel + kids.length + 1) mi lt false false pd n ld
        (kids ++ l2 :: f2) acc =
      processLoop fuel mi lt false false true (n + kids.length + 1) l2 f2 acc := by
  have step : processLoop (fuel + kids.length + 1) mi lt false false pd n ld
      (kids ++ l2 :: f2) acc =
    processLoop (fuel + kids.length) mi lt false false true (n + 1)
      ((kids ++ l2 :: f2).headI) ((kids ++ l2 :: f2).tail) acc := by
    have hnl : ¬ (opening_whitespace ld < mi) := by omega
    have hng : ¬ (mi < opening_whitespace ld) := by omega
    by_cases hna : is_next_action ld = true
    · simp [processLoop, hn, hnl, hng, hmi, hna, hdone,
        add_NextAction_done acc n ld hdone, read_and_count_lines]
      cases kids <;> rfl
    · simp [processLoop, hn, hnl, hng, hmi, hna, hdone, read_and_count_lines]
      cases kids <;> rfl
  rw [step]
  cases kids with
  | nil => simp
  | cons k ks =>
    simp only [List.cons_append, List.headI, List.tail]
    rw [show fuel + (k :: ks).length = fuel + (ks.length + 1) from by simp]
    rw [processLoop_skip_done mi lt false ks fuel (n + 1) k l2 f2 acc
      (hkids k (by simp)) (fun x hx => hkids x (by simp [hx])) (by omega)]
    rw [show n + 1 + ks.length + 1 = n + (k :: ks).length + 1 from by simp; omega]


/-- C2 witness: the done parent `- parent DONE` with undone child
`  - @ child` — the child is skipped with the cursor advanced (first
conjunct, an instance of the theorem), and in the full run the child is
never extracted (second conjunct). -/
theorem C2_witness :
    processLoop 5 0 (some '-') false false false 1 "- parent DONE"
        ["  - @ child", "- @ next"] [] =
      processLoop 3 0 (some '-') false false true 3 "- @ next" [] [] ∧
    process_outline 9 1 "- parent DONE" ["  - @ child", "- @ next"] [] =
      some (.ok ⟨0, "", [], [⟨"next", none, none, "p3", []⟩]⟩) := by
  refine ⟨?_, by decide⟩
  exact C2_done_parent_skips 0 (some '-') false 3 1 "- parent DONE" "- @ next"
    ["  - @ child"] [] [] (by decide) (by decide) (by decide) (by decide)

/-- Once an ordered list is blocked (`blocker_finished` with list type
`#`), the loop consumes lines without ever extracting anything: the
returned store equals the incoming one. -/
theorem blocked_no_add :
    ∀ (fuel mi : Nat) (bs pd : Bool) (n : Nat) (l : String) (f : List String)
      (acc : List NAction) (r : POResult),
      processLoop fuel mi (some '#') bs true pd n l f acc = some (.ok r) →
      r.actions = acc := by
  intro fuel
  induction fuel with
  | zero => intro mi bs pd n l f acc r h; simp [processLoop] at h
  | succ fuel ih =>
    intro mi bs pd n l f acc r h
    rw [processLoop] at h
    by_cases hn : n = 0
    · simp only [hn, if_pos, if_true] at h
      simp only [Option.some.injEq, Except.ok.injEq] at h
      rw [← h]
    · simp only [hn, if_false] at h
      by_cases hlt : opening_whitespace l < mi
      · simp only [hlt, if_pos, if_true] at h
        simp only [Option.some.injEq, Except.ok.injEq] at h
        rw [← h]
      · simp only [hlt, if_false] at h
        rw [if_pos (⟨trivial, trivial⟩ : True ∧ True)] at h
        exact ih _ _ _ _ _ _ _ _ h

/-- Any store produced by a successful `add_NextAction` extends the old one
only with an item whose locator is the current line number. -/
theorem add_NextAction_cases (acc : List NAction) (n : Nat) (l : String)
    (b : Bool) (acc2 : List NAction)
    (h : add_NextAction acc n l = .ok (b, acc2)) :
    ∀ a ∈ acc2, a ∈ acc ∨ a.jump_to = "p" ++ toString n := by
  intro a ha
  unfold add_NextAction at h
  by_cases hd : item_done l = true
  · simp only [hd, if_pos, if_true] at h
    simp only [Except.ok.injEq, Prod.mk.injEq] at h
    rw [← h.2] at ha
    exact Or.inl ha
  · simp only [hd, if_false, Bool.false_eq_true] at h
    cases hp : parse_and_strip_dates (parse_and_strip_contexts l).1 with
    | error e => rw [hp] at h; cases h
    | ok v =>
      obtain ⟨line2, vis, due⟩ := v
      rw [hp] at h
      simp only [Except.ok.injEq, Prod.mk.injEq] at h
      rw [← h.2] at ha
      rcases List.mem_append.mp ha with hin | hone
      · exact Or.inl hin
      · rcases List.mem_singleton.mp hone with rfl
        exact Or.inr rfl

/-- Fuel monotonicity: a run that finishes with some fuel finishes with the
same outcome given one more unit of fuel. -/
theorem processLoop_fuel_succ :
    ∀ (fuel mi : Nat) (lt : Option Char) (bs bf pd : Bool) (n : Nat)
      (l : String) (f : List String) (acc : List NAction)
      (x : Except Unit POResult),
      processLoop fuel mi lt bs bf pd n l f acc = some x →
      processLoop (fuel + 1) mi lt bs bf pd n l f acc = some x := by
  intro fuel
  induction fuel with
  | zero => intro mi lt bs bf pd n l f acc x h; simp [processLoop] at h
  | succ fuel ih =>
    intro mi lt bs bf pd n l f acc x h
    rw [processLoop] at h
    rw [processLoop]
    by_cases hn : n = 0
    · simp only [hn, if_pos, if_true] at h ⊢
      exact h
    · simp only [hn, if_false] at h ⊢
      by_cases hlt : opening_whitespace l < mi
      · simp only [hlt, if_pos, if_true] at h ⊢
        exact h
      · simp only [hlt, if_false] at h ⊢
        by_cases hbl : lt = some '#' ∧ bf = true
        · rw [if_pos hbl] at h
          rw [if_pos hbl]
          exact ih _ _ _ _ _ _ _ _ _ _ h
        · rw [if_neg hbl] at h
          rw [if_neg hbl]
          by_cases hgt : mi < opening_whitespace l
          · simp only [hgt, if_pos, if_true] at h ⊢
            by_cases hpd : pd = true
            · simp only [hpd, if_pos, if_true] at h ⊢
              exact ih _ _ _ _ _ _ _ _ _ _ h
            · simp only [hpd, Bool.false_eq_true, if_false] at h ⊢
              cases hls : list_start l with
              | none =>
                try simp only [hls] at h
                try simp only [hls]
                try dsimp only at h ⊢
                exact ih _ _ _ _ _ _ _ _ _ _ h
              | some c =>
                try simp only [hls] at h
                try simp only [hls]
                try dsimp only at h ⊢
                cases hin : processLoop fuel (opening_whitespace l)
                    (some c) false false false n l f acc with
                | none => rw [hin] at h; cases h
                | some y =>
                  rw [ih _ _ _ _ _ _ _ _ _ _ hin]
                  rw [hin] at h
                  cases y with
                  | error e => exact h
                  | ok r1 =>
                    dsimp only at h ⊢
                    exact ih _ _ _ _ _ _ _ _ _ _ h
          · simp only [hgt, if_false] at h ⊢
            by_cases hbs : bs = true
            · simp only [hbs, if_pos, if_true] at h ⊢
              exact ih _ _ _ _ _ _ _ _ _ _ h
            · simp only [hbs, if_false] at h ⊢
              by_cases hna : is_next_action l = true
              · simp only [hna, if_pos, if_true] at h ⊢
                cases ha : add_NextAction acc n l with
                | error e =>
                  try simp only [ha] at h
                  try simp only [ha]
                  simp only [Bool.false_eq_true, if_false] at h ⊢
                  exact h
                | ok r2 =>
                  try simp only [ha] at h
                  try simp only [ha]
                  simp only [Bool.false_eq_true, if_false] at h ⊢
                  exact ih _ _ _ _ _ _ _ _ _ _ h
              · simp only [hna, if_false] at h ⊢
                exact ih _ _ _ _ _ _ _ _ _ _ h

/-- Fuel monotonicity, arbitrary increments. -/
theorem processLoop_fuel_mono (fuel fuel2 : Nat) (hf : fuel ≤ fuel2) :
    ∀ (mi : Nat) (lt : Option Char) (bs bf pd : Bool) (n : Nat)
      (l : String) (f : List String) (acc : List NAction)
      (x : Except Unit POResult),
      processLoop fuel mi lt bs bf pd n l f acc = some x →
      processLoop fuel2 mi lt bs bf pd n l f acc = some x := by
  induction fuel2 with
  | zero =>
    intro mi lt bs bf pd n l f acc x h
    have : fuel = 0 := by omega
    rw [this] at h
    exact h
  | succ fuel2 ih =>
    intro mi lt bs bf pd n l f acc x h
    by_cases he : fuel = fuel2 + 1
    · rw [he] at h; exact h
    · exact processLoop_fuel_succ fuel2 _ _ _ _ _ _ _ _ _ _
        (ih (by omega) _ _ _ _ _ _ _ _ _ _ h)

/-- Main invariant for ordered-list blocking.  Fix a master indent `mi0`
and a future sibling `l2` at that indent.  Any loop state that is either
(a) the top-level `#`-run with its blocker already started (or finished),
or (b) a nested run strictly deeper than `mi0`, with the pending input
consisting of lines deeper than `mi0` followed by `l2`, can only extract
items from lines strictly before `l2`; and a nested run never consumes
`l2`, returning with the pending-input shape intact. -/
theorem blocked_run_bound (mi0 : Nat) (l2 : String) (post : List String)
    (hl2 : opening_whitespace l2 = mi0) :
    ∀ (fuel mi : Nat) (lt : Option Char) (bs bf pd : Bool) (n : Nat)
      (l : String) (f : List String) (acc : List NAction)
      (g : List String) (r : POResult),
      processLoop fuel mi lt bs bf pd n l f acc = some (.ok r) →
      l :: f = g ++ l2 :: post →
      (∀ x ∈ g, mi0 < opening_whitespace x) →
      ((mi = mi0 ∧ lt = some '#' ∧ (bs = true ∨ bf = true)) ∨ mi0 < mi) →
      (∀ a ∈ r.actions, a ∈ acc ∨
        ∃ k, k < n + g.length ∧ a.jump_to = "p" ++ toString k) ∧
      (mi0 < mi →
        ∃ g2, r.line :: r.rest = g2 ++ l2 :: post ∧
          (∀ x ∈ g2, mi0 < opening_whitespace x) ∧
          r.linenum + g2.length = n + g.length) := by
  intro fuel
  induction fuel with
  | zero => intro mi lt bs bf pd n l f acc g r h _ _ _; simp [processLoop] at h
  | succ fuel ih =>
    intro mi lt bs bf pd n l f acc g r h hshape hg hfc
    rw [processLoop] at h
    by_cases hn : n = 0
    · simp only [hn, if_pos, if_true, Option.some.injEq, Except.ok.injEq] at h
      subst h
      exact ⟨fun a ha => Or.inl ha, fun _ => ⟨g, hshape, hg, by simp; omega⟩⟩
    · simp only [hn, if_false] at h
      by_cases hlt : opening_whitespace l < mi
      · simp only [hlt, if_pos, if_true, Option.some.injEq, Except.ok.injEq] at h
        subst h
        exact ⟨fun a ha => Or.inl ha, fun _ => ⟨g, hshape, hg, rfl⟩⟩
      · simp only [hlt, if_false] at h
        by_cases hbl : lt = some '#' ∧ bf = true
        · rw [if_pos hbl] at h
          rcases hfc with ⟨hmi, hlth, hbsbf⟩ | hmi
          · obtain rfl := hbl.1
            obtain rfl := hbl.2
            have hacc := blocked_no_add fuel mi bs pd _ _ _ acc r h
            refine ⟨fun a ha => Or.inl (hacc ▸ ha), fun hx => absurd hx (by omega)⟩
          · cases g with
            | nil =>
              exfalso
              injection hshape with h1 h2
              exact hlt (by rw [h1, hl2]; exact hmi)
            | cons gh gt =>
              injection hshape with h1 h2
              subst h1
              subst h2
              try simp only [List.append_eq] at h
              cases hft : gt ++ l2 :: post with
              | nil => simp at hft
              | cons y ys =>
                rw [hft] at h
                simp only [read_and_count_lines] at h
                have hres := ih mi lt bs bf pd (n + 1) y ys acc gt r h
                  (by rw [hft]) (fun x hx => hg x (by simp [hx])) (Or.inr hmi)
                refine ⟨fun a ha => ?_, fun hx => ?_⟩
                · rcases hres.1 a ha with hin | ⟨k, hk, hj⟩
                  · exact Or.inl hin
                  · exact Or.inr ⟨k, by simp; omega, hj⟩
                · obtain ⟨g2, hs2, hg2, hsum⟩ := hres.2 hx
                  exact ⟨g2, hs2, hg2, by simp; omega⟩
        · rw [if_neg hbl] at h
          by_cases hgt : mi < opening_whitespace l
          · simp only [hgt, if_pos, if_true] at h
            have hgcons : ∃ gh gt, g = gh :: gt := by
              cases g with
              | nil =>
                exfalso
                injection hshape with h1 h2
                have hol : opening_whitespace l = mi0 := by rw [h1]; exact hl2
                rcases hfc with ⟨hmi, _, _⟩ | hmi
                · omega
                · omega
              | cons gh gt => exact ⟨gh, gt, rfl⟩
            obtain ⟨gh, gt, rfl⟩ := hgcons
            injection hshape with h1 h2
            subst h1
            subst h2
            try simp only [List.append_eq] at h
            by_cases hpd : pd = true
            · simp only [hpd, if_pos, if_true] at h
              cases hft : gt ++ l2 :: post with
              | nil => simp at hft
              | cons y ys =>
                rw [hft] at h
                simp only [read_and_count_lines] at h
                have hres := ih mi lt bs bf true (n + 1) y ys acc gt r h
                  (by rw [hft]) (fun x hx => hg x (by simp [hx])) hfc
                refine ⟨fun a ha => ?_, fun hx => ?_⟩
                · rcases hres.1 a ha with hin | ⟨k, hk, hj⟩
                  · exact Or.inl hin
                  · exact Or.inr ⟨k, by simp; omega, hj⟩
                · obtain ⟨g2, hs2, hg2, hsum⟩ := hres.2 hx
                  exact ⟨g2, hs2, hg2, by simp; omega⟩
            · simp only [hpd, Bool.false_eq_true, if_false] at h
              have hmi0lt : mi0 < opening_whitespace l := by
                rcases hfc with ⟨hmi, _, _⟩ | hmi
                · omega
                · omega
              cases hls : list_start l with
              | none =>
                try simp only [hls] at h
                try dsimp only at h
                cases hft : gt ++ l2 :: post with
                | nil => simp at hft
                | cons y ys =>
                  rw [hft] at h
                  simp only [read_and_count_lines] at h
                  have hres := ih mi lt bs bf false (n + 1) y ys acc gt r h
                    (by rw [hft]) (fun x hx => hg x (by simp [hx])) hfc
                  refine ⟨fun a ha => ?_, fun hx => ?_⟩
                  · rcases hres.1 a ha with hin | ⟨k, hk, hj⟩
                    · exact Or.inl hin
                    · exact Or.inr ⟨k, by simp; omega, hj⟩
                  · obtain ⟨g2, hs2, hg2, hsum⟩ := hres.2 hx
                    exact ⟨g2, hs2, hg2, by simp; omega⟩
              | some c =>
                try simp only [hls] at h
                try dsimp only at h
                cases hin : processLoop fuel (opening_whitespace l) (some c)
                    false false false n l (gt ++ l2 :: post) acc with
                | none => rw [hin] at h; cases h
                | some y =>
                  rw [hin] at h
                  cases y with
                  | error e => simp at h
                  | ok r1 =>
                    dsimp only at h
                    have hres1 := ih (opening_whitespace l) (some c) false false
                      false n l (gt ++ l2 :: post) acc (l :: gt) r1 hin rfl hg
                      (Or.inr hmi0lt)
                    obtain ⟨g2, hs2, hg2, hsum2⟩ := hres1.2 hmi0lt
                    have hres2 := ih mi lt bs bf false r1.linenum r1.line r1.rest
                      r1.actions g2 r h hs2 hg2 hfc
                    refine ⟨fun a ha => ?_, fun hx => ?_⟩
                    · rcases hres2.1 a ha with hin2 | ⟨k, hk, hj⟩
                      · rcases hres1.1 a hin2 with hin3 | ⟨k, hk, hj⟩
                        · exact Or.inl hin3
                        · exact Or.inr ⟨k, hk, hj⟩
                      · exact Or.inr ⟨k, by omega, hj⟩
                    · obtain ⟨g3, hs3, hg3, hsum3⟩ := hres2.2 hx
                      exact ⟨g3, hs3, hg3, by omega⟩
          · simp only [hgt, if_false] at h
            have heq : opening_whitespace l = mi := by omega
            by_cases hbs : bs = true
            · simp only [hbs, if_pos, if_true] at h
              have hres := ih mi lt true true pd n l f acc g r h hshape hg
                (by rcases hfc with ⟨hmi, hlth, _⟩ | hmi
                    · exact Or.inl ⟨hmi, hlth, Or.inr rfl⟩
                    · exact Or.inr hmi)
              exact hres
            · simp only [hbs, Bool.false_eq_true, if_false] at h
              have hmi' : mi0 < mi := by
                rcases hfc with ⟨hmi, hlth, hbsbf⟩ | hmi
                · exfalso
                  rcases hbsbf with hb | hb
                  · exact hbs hb
                  · exact hbl ⟨hlth, hb⟩
                · exact hmi
              have hgcons : ∃ gh gt, g = gh :: gt := by
                cases g with
                | nil =>
                  exfalso
                  injection hshape with h1 h2
                  rw [h1, hl2] at heq
                  omega
                | cons gh gt => exact ⟨gh, gt, rfl⟩
              obtain ⟨gh, gt, rfl⟩ := hgcons
              injection hshape with h1 h2
              subst h1
              subst h2
              try simp only [List.append_eq] at h
              by_cases hna : is_next_action l = true
              · simp only [hna, if_pos, if_true] at h
                cases ha : add_NextAction acc n l with
                | error e =>
                  try simp only [ha] at h
                  simp at h
                | ok r2 =>
                  try simp only [ha] at h
                  try dsimp only at h
                  cases hft : gt ++ l2 :: post with
                  | nil => simp at hft
                  | cons y ys =>
                    rw [hft] at h
                    simp only [read_and_count_lines] at h
                    have hres := ih mi lt _ bf _ (n + 1) y ys r2.2 gt r h
                      (by rw [hft]) (fun x hx => hg x (by simp [hx]))
                      (Or.inr hmi')
                    refine ⟨fun a ha2 => ?_, fun hx => ?_⟩
                    · rcases hres.1 a ha2 with hin | ⟨k, hk, hj⟩
                      · rcases add_NextAction_cases acc n l r2.1 r2.2
                          (by rw [ha]) a hin with hin2 | hj
                        · exact Or.inl hin2
                        · exact Or.inr ⟨n, by simp, hj⟩
                      · exact Or.inr ⟨k, by simp; omega, hj⟩
                    · obtain ⟨g2, hs2, hg2, hsum⟩ := hres.2 hx
                      exact ⟨g2, hs2, hg2, by simp; omega⟩
              · simp only [hna, Bool.false_eq_true, if_false] at h
                cases hft : gt ++ l2 :: post with
                | nil => simp at hft
                | cons y ys =>
                  rw [hft] at h
                  simp only [read_and_count_lines] at h
                  have hres := ih mi lt _ bf _ (n + 1) y ys acc gt r h
                    (by rw [hft]) (fun x hx => hg x (by simp [hx]))
                    (Or.inr hmi')
                  refine ⟨fun a ha2 => ?_, fun hx => ?_⟩
                  · rcases hres.1 a ha2 with hin | ⟨k, hk, hj⟩
                    · exact Or.inl hin
                    · exact Or.inr ⟨k, by simp; omega, hj⟩
                  · obtain ⟨g2, hs2, hg2, hsum⟩ := hres.2 hx
                    exact ⟨g2, hs2, hg2, by simp; omega⟩

/-- Flattening groups in front of a nonempty tail is nonempty. -/
theorem flatGroups_cons (gs : List (String × List String)) (x : String)
    (t : List String) : ∃ y ys, flatGroups gs (x :: t) = y :: ys := by
  cases gs with
  | nil => exact ⟨x, t, rfl⟩
  | cons gp gs2 =>
    obtain ⟨d, kids⟩ := gp
    exact ⟨d, kids ++ flatGroups gs2 (x :: t), rfl⟩

/-- Loop-level form of the ordered-list blocking claim: an ordered run
consisting of zero or more done siblings (each with a more-indented child
block), then the first undone sibling `u` with its child block `pre`, then
the next sibling `l2` and arbitrary further lines `post`, extracts items
only from lines strictly before `l2`. -/
theorem C1_groups_loop (mi0 : Nat) (l2 : String) (post : List String)
    (hl2 : opening_whitespace l2 = mi0) :
    ∀ (groups : List (String × List String)) (fuel n : Nat) (pd : Bool)
      (u : String) (pre : List String) (acc : List NAction)
      (l : String) (f : List String) (r : POResult),
      (∀ gp ∈ groups, item_done gp.1 = true ∧ opening_whitespace gp.1 = mi0 ∧
        ∀ x ∈ gp.2, mi0 < opening_whitespace x) →
      item_done u = false →
      opening_whitespace u = mi0 →
      (∀ x ∈ pre, mi0 < opening_whitespace x) →
      n ≠ 0 →
      l :: f = flatGroups groups (u :: (pre ++ l2 :: post)) →
      processLoop fuel mi0 (some '#') false false pd n l f acc = some (.ok r) →
      ∀ a ∈ r.actions, a ∈ acc ∨
        ∃ k, k < n + (flatGroups groups (u :: pre)).length ∧
          a.jump_to = "p" ++ toString k := by
  intro groups
  induction groups with
  | nil =>
    intro fuel n pd u pre acc l f r hgs hu hou hpre hn hshape h
    simp only [flatGroups] at hshape
    injection hshape with h1 h2
    subst h1
    subst h2
    cases fuel with
    | zero => simp [processLoop] at h
    | succ fu =>
      rw [processLoop] at h
      have hne1 : ¬ (opening_whitespace l < mi0) := by omega
      have hne2 : ¬ (mi0 < opening_whitespace l) := by omega
      simp only [hn, hne1, hne2, hu, Bool.false_eq_true, and_false, if_false,
        eq_self_iff_true, if_true] at h
      by_cases hna : is_next_action l = true
      · simp only [hna, if_pos, if_true] at h
        cases ha : add_NextAction acc n l with
        | error e =>
          try simp only [ha] at h
          simp at h
        | ok r2 =>
          try simp only [ha] at h
          try dsimp only at h
          cases hft : pre ++ l2 :: post with
          | nil => simp at hft
          | cons y ys =>
            try simp only [List.append_eq] at h
            rw [hft] at h
            simp only [read_and_count_lines] at h
            have hb := blocked_run_bound mi0 l2 post hl2 fu mi0 (some '#')
              true false false (n + 1) y ys r2.2 pre r h (by rw [hft]) hpre
              (Or.inl ⟨rfl, rfl, Or.inl rfl⟩)
            intro a ha2
            rcases hb.1 a ha2 with hin | ⟨k, hk, hj⟩
            · rcases add_NextAction_cases acc n l r2.1 r2.2 (by rw [ha]) a hin
                with hin2 | hj
              · exact Or.inl hin2
              · exact Or.inr ⟨n, by simp only [flatGroups, List.length_cons]; omega, hj⟩
            · exact Or.inr ⟨k, by simp only [flatGroups, List.length_cons]; omega, hj⟩
      · simp only [hna, Bool.false_eq_true, if_false] at h
        cases hft : pre ++ l2 :: post with
        | nil => simp at hft
        | cons y ys =>
          try simp only [List.append_eq] at h
          rw [hft] at h
          simp only [read_and_count_lines] at h
          have hb := blocked_run_bound mi0 l2 post hl2 fu mi0 (some '#')
            true false false (n + 1) y ys acc pre r h (by rw [hft]) hpre
            (Or.inl ⟨rfl, rfl, Or.inl rfl⟩)
          intro a ha2
          rcases hb.1 a ha2 with hin | ⟨k, hk, hj⟩
          · exact Or.inl hin
          · exact Or.inr ⟨k, by simp only [flatGroups, List.length_cons]; omega, hj⟩
  | cons gp gs ih =>
    obtain ⟨d, kids⟩ := gp
    intro fuel n pd u pre acc l f r hgs hu hou hpre hn hshape h
    have hd := hgs (d, kids) (by simp)
    simp only [flatGroups] at hshape
    injection hshape with h1 h2
    subst h1
    subst h2
    cases fuel with
    | zero => simp [processLoop] at h
    | succ fu =>
      rw [processLoop] at h
      have hdo : opening_whitespace l = mi0 := hd.2.1
      have hne1 : ¬ (opening_whitespace l < mi0) := by omega
      have hne2 : ¬ (mi0 < opening_whitespace l) := by omega
      simp only [hn, hne1, hne2, hd.1, Bool.false_eq_true, and_false, if_false,
        eq_self_iff_true, if_true] at h
      obtain ⟨t0, trest, hT⟩ := flatGroups_cons gs u (pre ++ l2 :: post)
      have hrec : processLoop fu mi0 (some '#') false false true
          (n + 1 + kids.length) t0 trest acc = some (.ok r) := by
        by_cases hna : is_next_action l = true
        · simp only [hna, if_pos, if_true] at h
          rw [add_NextAction_done acc n l hd.1] at h
          dsimp only at h
          cases kids with
          | nil =>
            try simp only [List.nil_append] at h
            rw [hT] at h
            simp only [read_and_count_lines] at h
            simpa using h
          | cons k ks =>
            try simp only [List.append_eq, List.cons_append] at h
            rw [hT] at h
            simp only [read_and_count_lines] at h
            have hmono := processLoop_fuel_mono fu (fu + (ks.length + 1))
              (by omega) _ _ _ _ _ _ _ _ _ _ h
            rw [processLoop_skip_done mi0 (some '#') false ks fu (n + 1) k t0
              trest acc (hd.2.2 k (by simp)) (fun x hx => hd.2.2 x (by simp [hx]))
              (by omega)] at hmono
            have harith : n + 1 + (k :: ks).length = n + 1 + ks.length + 1 := by
              simp only [List.length_cons]
              omega
            rw [harith]
            exact hmono
        · simp only [hna, Bool.false_eq_true, if_false] at h
          cases kids with
          | nil =>
            try simp only [List.nil_append] at h
            rw [hT] at h
            simp only [read_and_count_lines] at h
            simpa using h
          | cons k ks =>
            try simp only [List.append_eq, List.cons_append] at h
            rw [hT] at h
            simp only [read_and_count_lines] at h
            have hmono := processLoop_fuel_mono fu (fu + (ks.length + 1))
              (by omega) _ _ _ _ _ _ _ _ _ _ h
            rw [processLoop_skip_done mi0 (some '#') false ks fu (n + 1) k t0
              trest acc (hd.2.2 k (by simp)) (fun x hx => hd.2.2 x (by simp [hx]))
              (by omega)] at hmono
            have harith : n + 1 + (k :: ks).length = n + 1 + ks.length + 1 := by
              simp only [List.length_cons]
              omega
            rw [harith]
            exact hmono
      have := ih fu (n + 1 + kids.length) true u pre acc t0 trest r
        (fun gp hgp => hgs gp (by simp [hgp])) hu hou hpre (by omega) (by rw [hT])
        hrec
      intro a ha2
      rcases this a ha2 with hin | ⟨k, hk, hj⟩
      · exact Or.inl hin
      · refine Or.inr ⟨k, ?_, hj⟩
        simp only [flatGroups, List.length_cons, List.length_append] at hk ⊢
        omega

/-- C1: in an ordered (`#`) list run — zero or more done siblings (each
with its more-indented subtree), then the first undone sibling `u` with
its subtree `pre`, then the next sibling `l2` at the master indent and
arbitrary further lines `post` (so `l2` and everything after it covers all
later siblings and their descendants, regardless of content or done
state) — every action that `process_outline` adds to the store comes from
a line strictly before `l2`: nothing at or after the sibling following the
first undone element is ever extracted. -/
theorem C1_ordered_blocking (fuel n : Nat)
    (groups : List (String × List String)) (u : String) (pre : List String)
    (l2 : String) (post : List String) (acc : List NAction)
    (l : String) (f : List String) (r : POResult)
    (hshape : l :: f = flatGroups groups (u :: (pre ++ l2 :: post)))
    (hls : list_start l = some '#')
    (hmi : ∀ gp ∈ groups, item_done gp.1 = true ∧
      opening_whitespace gp.1 = opening_whitespace l ∧
      ∀ x ∈ gp.2, opening_whitespace l < opening_whitespace x)
    (hu : item_done u = false)
    (hou : opening_whitespace u = opening_whitespace l)
    (hpre : ∀ x ∈ pre, opening_whitespace l < opening_whitespace x)
    (hl2 : opening_whitespace l2 = opening_whitespace l)
    (hn : n ≠ 0)
    (h : process_outline fuel n l f acc = some (.ok r)) :
    ∀ a ∈ r.actions, a ∈ acc ∨
      ∃ k, k < n + (flatGroups groups (u :: pre)).length ∧
        a.jump_to = "p" ++ toString k := by
  unfold process_outline at h
  rw [hls] at h
  exact C1_groups_loop (opening_whitespace l) l2 post hl2 groups fuel n false
    u pre acc l f r hmi hu hou hpre hn hshape h

/-- C1 witness: a 3-item ordered list whose first item is undone — the
second item (here even marked DONE) and the third are never added: the
full run extracts only item 1, and the theorem bound confirms every stored
action has a locator strictly before line 2. -/
theorem C1_witness :
    process_outline 20 1 "# @ one" ["# @ two DONE", "# @ three"] [] =
      some (.ok ⟨0, "", [], [⟨"one", none, none, "p1", []⟩]⟩) ∧
    ∀ a ∈ [(⟨"one", none, none, "p1", []⟩ : NAction)],
      a ∈ ([] : List NAction) ∨ ∃ k, k < 2 ∧ a.jump_to = "p" ++ toString k := by
  have he : process_outline 20 1 "# @ one" ["# @ two DONE", "# @ three"] [] =
      some (.ok ⟨0, "", [], [⟨"one", none, none, "p1", []⟩]⟩) := by decide
  refine ⟨he, ?_⟩
  have hb := C1_ordered_blocking 20 1 [] "# @ one" [] "# @ two DONE"
    ["# @ three"] [] "# @ one" ["# @ two DONE", "# @ three"]
    ⟨0, "", [], [⟨"one", none, none, "p1", []⟩]⟩ rfl (by decide) (by simp)
    (by decide) (by decide) (by simp) (by decide) (by decide) he
  exact fun a ha => hb a ha

/-- At end of input (line counter 0) the loop returns immediately. -/
theorem processLoop_at_eof (fuel : Nat) (hf : 1 ≤ fuel) (mi : Nat)
    (lt : Option Char) (bs bf pd : Bool) (l : String) (f : List String)
    (acc : List NAction) :
    processLoop fuel mi lt bs bf pd 0 l f acc = some (.ok ⟨0, l, f, acc⟩) := by
  cases fuel with
  | zero => omega
  | succ fu => rw [processLoop]; simp

/-- The loop never grows the remaining input. -/
theorem processLoop_rest_mono :
    ∀ (fuel mi : Nat) (lt : Option Char) (bs bf pd : Bool) (n : Nat)
      (l : String) (f : List String) (acc : List NAction) (r : POResult),
      processLoop fuel mi lt bs bf pd n l f acc = some (.ok r) →
      r.rest.length ≤ f.length := by
  intro fuel
  induction fuel with
  | zero => intro mi lt bs bf pd n l f acc r h; simp [processLoop] at h
  | succ fu ih =>
    intro mi lt bs bf pd n l f acc r h
    rw [processLoop] at h
    by_cases hn : n = 0
    · simp only [hn, if_pos, if_true, Option.some.injEq, Except.ok.injEq] at h
      subst h
      exact Nat.le_refl _
    · simp only [hn, if_false] at h
      by_cases hlt : opening_whitespace l < mi
      · simp only [hlt, if_pos, if_true, Option.some.injEq, Except.ok.injEq] at h
        subst h
        exact Nat.le_refl _
      · simp only [hlt, if_false] at h
        have hread : ∀ (bs2 bf2 pd2 : Bool) (acc2 : List NAction),
            processLoop fu mi lt bs2 bf2 pd2 (read_and_count_lines n f).1.1
              (read_and_count_lines n f).1.2 (read_and_count_lines n f).2 acc2 =
              some (.ok r) → r.rest.length ≤ f.length := by
          intro bs2 bf2 pd2 acc2 hh
          cases f with
          | nil =>
            simp only [read_and_count_lines] at hh
            exact ih _ _ _ _ _ _ _ _ _ _ hh
          | cons y ys =>
            simp only [read_and_count_lines] at hh
            have := ih _ _ _ _ _ _ _ _ _ _ hh
            simp only [List.length_cons]
            omega
        by_cases hbl : lt = some '#' ∧ bf = true
        · rw [if_pos hbl] at h
          exact hread _ _ _ _ h
        · rw [if_neg hbl] at h
          by_cases hgt : mi < opening_whitespace l
          · simp only [hgt, if_pos, if_true] at h
            by_cases hpd : pd = true
            · simp only [hpd, if_pos, if_true] at h
              exact hread _ _ _ _ h
            · simp only [hpd, Bool.false_eq_true, if_false] at h
              cases hls : list_start l with
              | none =>
                try simp only [hls] at h
                try dsimp only at h
                exact hread _ _ _ _ h
              | some c =>
                try simp only [hls] at h
                try dsimp only at h
                cases hin : processLoop fu (opening_whitespace l) (some c)
                    false false false n l f acc with
                | none => rw [hin] at h; cases h
                | some y =>
                  rw [hin] at h
                  cases y with
                  | error e => simp at h
                  | ok r1 =>
                    dsimp only at h
                    have h1 := ih _ _ _ _ _ _ _ _ _ _ hin
                    have h2 := ih _ _ _ _ _ _ _ _ _ _ h
                    omega
          · simp only [hgt, if_false] at h
            by_cases hbs : bs = true
            · simp only [hbs, if_pos, if_true] at h
              exact ih _ _ _ _ _ _ _ _ _ _ h
            · simp only [hbs, Bool.false_eq_true, if_false] at h
              by_cases hna : is_next_action l = true
              · simp only [hna, if_pos, if_true] at h
                cases ha : add_NextAction acc n l with
                | error e =>
                  try simp only [ha] at h
                  simp at h
                | ok r2 =>
                  try simp only [ha] at h
                  try dsimp only at h
                  exact hread _ _ _ _ h
              · simp only [hna, Bool.false_eq_true, if_false] at h
                exact hread _ _ _ _ h

/-- The loop returns only at end of input or on a line less indented than
the master indent. -/
theorem processLoop_ret :
    ∀ (fuel mi : Nat) (lt : Option Char) (bs bf pd : Bool) (n : Nat)
      (l : String) (f : List String) (acc : List NAction) (r : POResult),
      processLoop fuel mi lt bs bf pd n l f acc = some (.ok r) →
      r.linenum = 0 ∨ opening_whitespace r.line < mi := by
  intro fuel
  induction fuel with
  | zero => intro mi lt bs bf pd n l f acc r h; simp [processLoop] at h
  | succ fu ih =>
    intro mi lt bs bf pd n l f acc r h
    rw [processLoop] at h
    by_cases hn : n = 0
    · simp only [hn, if_pos, if_true, Option.some.injEq, Except.ok.injEq] at h
      subst h
      exact Or.inl rfl
    · simp only [hn, if_false] at h
      by_cases hlt : opening_whitespace l < mi
      · simp only [hlt, if_pos, if_true, Option.some.injEq, Except.ok.injEq] at h
        subst h
        exact Or.inr hlt
      · simp only [hlt, if_false] at h
        by_cases hbl : lt = some '#' ∧ bf = true
        · rw [if_pos hbl] at h
          exact ih _ _ _ _ _ _ _ _ _ _ h
        · rw [if_neg hbl] at h
          by_cases hgt : mi < opening_whitespace l
          · simp only [hgt, if_pos, if_true] at h
            by_cases hpd : pd = true
            · simp only [hpd, if_pos, if_true] at h
              exact ih _ _ _ _ _ _ _ _ _ _ h
            · simp only [hpd, Bool.false_eq_true, if_false] at h
              cases hls : list_start l with
              | none =>
                try simp only [hls] at h
                try dsimp only at h
                exact ih _ _ _ _ _ _ _ _ _ _ h
              | some c =>
                try simp only [hls] at h
                try dsimp only at h
                cases hin : processLoop fu (opening_whitespace l) (some c)
                    false false false n l f acc with
                | none => rw [hin] at h; cases h
                | some y =>
                  rw [hin] at h
                  cases y with
                  | error e => simp at h
                  | ok r1 =>
                    dsimp only at h
                    exact ih _ _ _ _ _ _ _ _ _ _ h
          · simp only [hgt, if_false] at h
            by_cases hbs : bs = true
            · simp only [hbs, if_pos, if_true] at h
              exact ih _ _ _ _ _ _ _ _ _ _ h
            · simp only [hbs, Bool.false_eq_true, if_false] at h
              by_cases hna : is_next_action l = true
              · simp only [hna, if_pos, if_true] at h
                cases ha : add_NextAction acc n l with
                | error e =>
                  try simp only [ha] at h
                  simp at h
                | ok r2 =>
                  try simp only [ha] at h
                  try dsimp only at h
                  exact ih _ _ _ _ _ _ _ _ _ _ h
              · simp only [hna, Bool.false_eq_true, if_false] at h
                exact ih _ _ _ _ _ _ _ _ _ _ h

/-- Fuel sufficiency: with fuel `4p + 4` for an input of at most `p`
pending lines (current line included), the loop always finishes — this is
the termination statement for `process_outline`.  The invariant
`bs = true → lt = '#'` holds on every reachable state (the blocker flag is
only ever set in an ordered list). -/
theorem processLoop_fuel_suff :
    ∀ (p : Nat), ∀ (fuel mi : Nat) (lt : Option Char) (bs bf pd : Bool)
      (n : Nat) (l : String) (f : List String) (acc : List NAction),
      f.length + 1 ≤ p →
      (bs = true → lt = some '#') →
      4 * p + 4 ≤ fuel →
      (processLoop fuel mi lt bs bf pd n l f acc).isSome = true := by
  intro p
  induction p using Nat.strong_induction_on with
  | _ p ihp =>
    intro fuel mi lt bs bf pd n l f acc hp hinv hfuel
    have hp1 : 1 ≤ p := by omega
    obtain ⟨fu, rfl⟩ : ∃ fu, fuel = fu + 1 := ⟨fuel - 1, by omega⟩
    have hread : ∀ (fuel2 : Nat), 4 * (p - 1) + 4 ≤ fuel2 →
        ∀ (bs2 bf2 pd2 : Bool) (acc2 : List NAction), (bs2 = true → lt = some '#') →
        (processLoop fuel2 mi lt bs2 bf2 pd2 (read_and_count_lines n f).1.1
          (read_and_count_lines n f).1.2 (read_and_count_lines n f).2
          acc2).isSome = true := by
      intro fuel2 hfuel2 bs2 bf2 pd2 acc2 hinv2
      cases f with
      | nil =>
        simp only [read_and_count_lines]
        rw [processLoop_at_eof fuel2 (by omega)]
        rfl
      | cons y ys =>
        simp only [read_and_count_lines]
        have hys : ys.length + 1 ≤ p - 1 := by
          simp only [List.length_cons] at hp
          omega
        exact ihp (p - 1) (by omega) fuel2 mi lt bs2 bf2 pd2 (n + 1) y ys acc2
          hys hinv2 hfuel2
    have hinv2gen : ∀ lt2 : Option Char,
        ((if item_done l = true then false
          else if lt2 = some '#' then true else false) = true → lt2 = some '#') := by
      intro lt2 hb
      by_cases hdl : item_done l = true
      · rw [if_pos hdl] at hb
        cases hb
      · rw [if_neg hdl] at hb
        by_cases hcc : lt2 = some '#'
        · exact hcc
        · rw [if_neg hcc] at hb
          cases hb
    have hinv3gen : ∀ (bsv : Bool), bsv = false → ∀ lt2 : Option Char,
        ((if item_done l = true then bsv
          else if lt2 = some '#' then true else bsv) = true → lt2 = some '#') := by
      intro bsv hbsv lt2 hb
      subst hbsv
      exact hinv2gen lt2 hb
    rw [processLoop]
    by_cases hn : n = 0
    · rw [if_pos hn]
      rfl
    · rw [if_neg hn]
      by_cases hlt : opening_whitespace l < mi
      · rw [if_pos hlt]
        rfl
      · rw [if_neg hlt]
        by_cases hbl : lt = some '#' ∧ bf = true
        · rw [if_pos hbl]
          exact hread fu (by omega) bs bf pd acc hinv
        · rw [if_neg hbl]
          by_cases hgt : mi < opening_whitespace l
          · rw [if_pos hgt]
            by_cases hpd : pd = true
            · rw [if_pos hpd]
              exact hread fu (by omega) bs bf pd acc hinv
            · rw [if_neg hpd]
              cases hls : list_start l with
              | none =>
                dsimp only
                exact hread fu (by omega) bs bf pd acc hinv
              | some c =>
                dsimp only
                obtain ⟨fu2, rfl⟩ : ∃ fu2, fu = fu2 + 1 := ⟨fu - 1, by omega⟩
                have hinner : ∃ x, processLoop (fu2 + 1) (opening_whitespace l)
                    (some c) false false false n l f acc = some x ∧
                    ∀ r1, x = .ok r1 →
                      r1.linenum = 0 ∨ r1.rest.length + 1 + 1 ≤ f.length + 1 := by
                  rw [processLoop]
                  rw [if_neg hn]
                  rw [if_neg (show ¬ (opening_whitespace l <
                    opening_whitespace l) from by omega)]
                  rw [if_neg (show ¬ ((some c : Option Char) = some '#' ∧
                    (false : Bool) = true) from by simp)]
                  rw [if_neg (show ¬ (opening_whitespace l <
                    opening_whitespace l) from by omega)]
                  rw [if_neg (show ¬ ((false : Bool) = true) from by simp)]
                  have hinner2 : ∀ (acc2 : List NAction),
                      ∃ x, processLoop fu2 (opening_whitespace l) (some c)
                        (if item_done l = true then false
                          else if (some c : Option Char) = some '#' then true
                          else false) false (item_done l)
                        (read_and_count_lines n f).1.1
                        (read_and_count_lines n f).1.2
                        (read_and_count_lines n f).2 acc2 = some x ∧
                      ∀ r1, x = .ok r1 →
                        r1.linenum = 0 ∨ r1.rest.length + 1 + 1 ≤ f.length + 1 := by
                    intro acc2
                    cases f with
                    | nil =>
                      simp only [read_and_count_lines]
                      rw [processLoop_at_eof fu2 (by omega)]
                      refine ⟨.ok ⟨0, "", [], acc2⟩, rfl, ?_⟩
                      intro r1 hr1
                      injection hr1 with hr2
                      rw [← hr2]
                      exact Or.inl rfl
                    | cons y ys =>
                      simp only [read_and_count_lines]
                      have hys : ys.length + 1 ≤ p - 1 := by
                        simp only [List.length_cons] at hp
                        omega
                      have hsome := ihp (p - 1) (by omega) fu2
                        (opening_whitespace l) (some c)
                        (if item_done l = true then false
                          else if (some c : Option Char) = some '#' then true
                          else false) false (item_done l) (n + 1) y ys
                        acc2 hys (hinv2gen (some c)) (by omega)
                      obtain ⟨x, hx⟩ := Option.isSome_iff_exists.mp hsome
                      refine ⟨x, hx, ?_⟩
                      intro r1 hr1
                      subst hr1
                      have := processLoop_rest_mono fu2 _ _ _ _ _ _ _ _ _ _ hx
                      simp only [List.length_cons]
                      omega
                  by_cases hna : is_next_action l = true
                  · rw [if_pos hna]
                    cases ha : add_NextAction acc n l with
                    | error e =>
                      refine ⟨.error e, rfl, ?_⟩
                      intro r1 hr1
                      cases hr1
                    | ok r2 =>
                      dsimp only
                      exact hinner2 r2.2
                  · rw [if_neg hna]
                    exact hinner2 acc
                obtain ⟨x, hx, hxb⟩ := hinner
                rw [hx]
                cases x with
                | error e => rfl
                | ok r1 =>
                  dsimp only
                  rcases hxb r1 rfl with h0 | hb
                  · rw [h0]
                    rw [processLoop_at_eof (fu2 + 1) (by omega)]
                    rfl
                  · exact ihp (p - 1) (by omega) (fu2 + 1) mi lt bs bf pd
                      r1.linenum r1.line r1.rest r1.actions (by omega) hinv
                      (by omega)
          · rw [if_neg hgt]
            by_cases hbs : bs = true
            · rw [if_pos hbs]
              obtain ⟨fu2, rfl⟩ : ∃ fu2, fu = fu2 + 1 := ⟨fu - 1, by omega⟩
              rw [processLoop]
              rw [if_neg hn]
              rw [if_neg hlt]
              rw [if_pos ⟨hinv hbs, rfl⟩]
              exact hread fu2 (by omega) bs true pd acc hinv
            · rw [if_neg hbs]
              have hbsf : bs = false := by
                cases bs
                · rfl
                · exact absurd rfl hbs
              by_cases hna : is_next_action l = true
              · rw [if_pos hna]
                cases ha : add_NextAction acc n l with
                | error e => rfl
                | ok r2 =>
                  dsimp only
                  exact hread fu (by omega) _ bf _ r2.2 (hinv3gen bs hbsf lt)
              · rw [if_neg hna]
                exact hread fu (by omega) _ bf _ acc (hinv3gen bs hbsf lt)

/-- C9: `process_outline` terminates on every finite input line stream —
fuel `4(|f|+1)+4` always suffices for a run over the remaining lines `f`
(each line visited strictly advances the cursor, and the nested recursion
always consumes at least one line before resuming) — and the run ends
either at end of input (line counter 0) or at the first line indented less
than the master indent. -/
theorem C9_process_outline_terminates (n : Nat) (l : String) (f : List String)
    (acc : List NAction) :
    (process_outline (4 * (f.length + 1) + 4) n l f acc).isSome = true ∧
    ∀ r, process_outline (4 * (f.length + 1) + 4) n l f acc = some (.ok r) →
      r.linenum = 0 ∨ opening_whitespace r.line < opening_whitespace l := by
  constructor
  · unfold process_outline
    exact processLoop_fuel_suff (f.length + 1) (4 * (f.length + 1) + 4)
      (opening_whitespace l) (list_start l) false false false n l f acc
      (Nat.le_refl _) (fun hb => by cases hb) (Nat.le_refl _)
  · intro r h
    unfold process_outline at h
    exact processLoop_ret (4 * (f.length + 1) + 4) (opening_whitespace l)
      (list_start l) false false false n l f acc r h

/-- C9 witness: the bound applied to a concrete one-line run, which ends at
end of input. -/
theorem C9_witness :
    (process_outline 8 1 "x" [] []).isSome = true ∧
    ((0 : Nat) = 0 ∨ opening_whitespace "" < opening_whitespace "x") := by
  have h := C9_process_outline_terminates 1 "x" [] []
  exact ⟨h.1, h.2 ⟨0, "", [], []⟩ (by decide)⟩
